import Mathlib

/-!
Verification development for the MIMO channel-decoding generators
(`dimod/generators/mimo.py`).

Shallow embedding conventions:
* numpy complex scalars are pairs `ℚ × ℚ` (real part, imaginary part);
  floating point is modeled by exact rational arithmetic.
* numpy 1-D arrays are `List`s; 2-D arrays are `List (List _)` in row-major
  order.  A column vector that the source keeps as an `(n, 1)` 2-D array is
  stored flat (`List CQ`) except where the source inspects its 2-D shape
  (`_quadratic_form`), where the 2-D form is kept.
* the numpy dtype of an array (real `float64` vs `complex128`) is runtime
  metadata the source branches on; it is carried as an explicit `cplx` flag
  in `NDVec`/`NDMat`.
* Python exceptions (`ValueError`, `AssertionError`, `ZeroDivisionError`)
  become `Except String` results.
-/

/-- Complex rationals: (real part, imaginary part).  Addition and zero come
from the product monoid structure (componentwise, as for complex numbers). -/
abbrev CQ : Type := ℚ × ℚ

/-- Complex multiplication on `CQ`. -/
def cmul (a b : CQ) : CQ := (a.1 * b.1 - a.2 * b.2, a.1 * b.2 + a.2 * b.1)

/-- Complex conjugation on `CQ`. -/
def conjC (a : CQ) : CQ := (a.1, -a.2)

/-- Dot product of two complex vectors (no conjugation), as in `np.matmul`
of a row with a column. -/
def dotC (a b : List CQ) : CQ := (List.zipWith cmul a b).sum

/-- Scale a complex vector by a complex scalar. -/
def scaleC (c : CQ) (v : List CQ) : List CQ := v.map (cmul c)

/-- A 1-D numpy array of scalars together with its dtype flag
(`cplx = true` means dtype `complex128`). -/
structure NDVec where
  entries : List CQ
  cplx : Bool
deriving DecidableEq, Repr

/-- A 2-D numpy array (row-major) together with its dtype flag. -/
structure NDMat where
  entries : List (List CQ)
  cplx : Bool
deriving DecidableEq, Repr

/-- Number of columns of a row-major 2-D array (length of the first row). -/
def numCols (M : List (List CQ)) : ℕ := (M.headD []).length

/-- `F.T.conj()`: the conjugate transpose, rows indexed by the columns of
`F`. -/
def conjTransposeM (F : List (List CQ)) : List (List CQ) :=
  (List.range (numCols F)).map fun i => F.map fun row => conjC (row.getD i (0, 0))

/-- `np.matmul` of a matrix with a (flat) column vector. -/
def matVec (M : List (List CQ)) (v : List CQ) : List CQ :=
  M.map fun row => dotC row v

/-- `np.matmul` of two row-major matrices. -/
def matMulM (A B : List (List CQ)) : List (List CQ) :=
  A.map fun arow => (List.range (numCols B)).map fun j =>
    dotC arow (B.map fun brow => brow.getD j (0, 0))

/-- The supported modulations.  The catalog-only variants (`128QAM`,
`256QAM`) are unreachable from the claims and are omitted. -/
inductive Modulation where
  | BPSK | QPSK | QAM16 | QAM64
deriving DecidableEq, Repr

open Modulation

/-- `constellation_properties`: bits per transmitter, amplitude levels, and
constellation mean power. -/
def constellationProperties (m : Modulation) : ℕ × List ℚ × ℚ :=
  match m with
  | BPSK => (1, [1], 1)
  | QPSK => (2, [1], 2 * ((1 * 1) / 1))
  | QAM16 => (2 * 2, [1, 3], 2 * ((1 * 1 + 3 * 3) / 2))
  | QAM64 => (2 * 3, [1, 3, 5, 7], 2 * ((1 * 1 + 3 * 3 + 5 * 5 + 7 * 7) / 4))

/-- `_quadratic_form(y, F)`: expands `||y - F v||^2` into
`(offset, h, J) = (y^H y, -2 F^H y, F^H F)`.  `y` is kept 2-D because the
source checks its shape (`y.shape == [n, 1]`); shape violations raise
`ValueError`.  The `(1,1)` matrix `offset` is unwrapped to a scalar. -/
def quadraticForm (y F : NDMat) : Except String (ℚ × NDVec × NDMat) := do
  if ¬ (y.entries.all fun r => r.length = 1) then
    throw "ValueError: y should have shape [n, 1] for some n"
  if F.entries.length ≠ y.entries.length then
    throw "ValueError: F should have shape [n, m] for some m, n"
  let yflat : List CQ := y.entries.map fun r => r.headD (0, 0)
  let offset : ℚ := (yflat.map fun c => c.2 * c.2).sum
                  + (yflat.map fun c => c.1 * c.1).sum
  let h : List CQ := scaleC (-2, 0) (matVec (conjTransposeM F.entries) yflat)
  let J : List (List CQ) := matMulM (conjTransposeM F.entries) F.entries
  return (offset, ⟨h, F.cplx || y.cplx⟩, ⟨J, F.cplx⟩)

/-- Vertical stack (`np.concatenate(..., axis=0)` of 2-D arrays). -/
def vcat (A B : List (List ℚ)) : List (List ℚ) := A ++ B

/-- Horizontal stack (`np.concatenate(..., axis=1)` of 2-D arrays with the
same number of rows). -/
def hcat (A B : List (List ℚ)) : List (List ℚ) := List.zipWith (· ++ ·) A B

/-- Real part of a 2-D complex array. -/
def matRe (M : List (List CQ)) : List (List ℚ) := M.map fun r => r.map (·.1)

/-- Imaginary part of a 2-D complex array. -/
def matIm (M : List (List CQ)) : List (List ℚ) := M.map fun r => r.map (·.2)

/-- Transpose of a row-major real 2-D array. -/
def transposeQ (M : List (List ℚ)) : List (List ℚ) :=
  (List.range (M.headD []).length).map fun i => M.map fun row => row.getD i 0

/-- `_real_quadratic_form(h, J, modulation)`: project a complex quadratic
form onto concatenated real variables unless the modulation is BPSK or both
arrays already have a real dtype. -/
def realQuadraticForm (h : NDVec) (J : NDMat) (m : Modulation) :
    List ℚ × List (List ℚ) :=
  if m ≠ BPSK ∧ (h.cplx || J.cplx) then
    (h.entries.map (·.1) ++ h.entries.map (·.2),
     hcat (vcat (matRe J.entries) (matIm J.entries))
          (vcat (transposeQ (matIm J.entries)) (matRe J.entries)))
  else
    (h.entries.map (·.1), matRe J.entries)

/-- `np.kron` of a column vector of weights with a (flat) column vector. -/
def kronVec (amps : List ℚ) (h : List ℚ) : List ℚ :=
  (amps.map fun a => h.map fun x => a * x).flatten

/-- `np.kron` of two row-major real matrices. -/
def kronM (A B : List (List ℚ)) : List (List ℚ) :=
  (A.map fun arow => B.map fun brow =>
    (arow.map fun a => brow.map fun b => a * b).flatten).flatten

/-- The amplitude weight vector `2**np.arange(num_amps)` used by
`_amplitude_modulated_quadratic_form`. -/
def ampWeights (numAmps : ℕ) : List ℚ :=
  (List.range numAmps).map fun i => (2 : ℚ) ^ i

/-- `_amplitude_modulated_quadratic_form(h, J, modulation)`: BPSK and QPSK
pass through; 16QAM and 64QAM apply the Kronecker expansion with weights
`[1, 2]` and `[1, 2, 4]` respectively. -/
def amplitudeModulatedQuadraticForm (h : List ℚ) (J : List (List ℚ))
    (m : Modulation) : List ℚ × List (List ℚ) :=
  match m with
  | BPSK | QPSK => (h, J)
  | QAM16 =>
      (kronVec (ampWeights 2) h,
       kronM (kronM ((ampWeights 2).map fun a => [a]) [ampWeights 2]) J)
  | QAM64 =>
      (kronVec (ampWeights 3) h,
       kronM (kronM ((ampWeights 3).map fun a => [a]) [ampWeights 3]) J)

/-- `_yF_to_hJ(y, F, modulation)`: the end-to-end quadratic-form pipeline. -/
def yFToHJ (y F : NDMat) (m : Modulation) :
    Except String (List ℚ × List (List ℚ) × ℚ) := do
  let (offset, h, J) ← quadraticForm y F
  let (h1, J1) := realQuadraticForm h J m
  let (h2, J2) := amplitudeModulatedQuadraticForm h1 J1 m
  return (h2, J2, offset)

/-- Number of spins per real dimension for the amplitude-modulated
constellations (`spins_per_real_symbol` in `symbols_to_spins`). -/
def spinsPerRealSymbol (m : Modulation) : ℕ :=
  match m with
  | BPSK => 1
  | QPSK => 1
  | QAM16 => 2
  | QAM64 => 3

/-- All sign tuples of length `k`, in the order of
`itertools.product(*[(-1, 1) for _ in range(k)])` (first component varies
slowest). -/
def signTuples : ℕ → List (List ℚ)
  | 0 => [[]]
  | k + 1 => (([-1, 1] : List ℚ).map fun x => (signTuples k).map fun t => x :: t).flatten

/-- The weighted integer `sum(x * 2**i)` of a sign tuple, the key of the
`symb_to_spins` dictionary. -/
def weightedSum (t : List ℚ) : ℚ :=
  ((List.range t.length).map fun i => t.getD i 0 * 2 ^ i).sum

/-- The `symb_to_spins` dictionary lookup: the sign tuple of length `k`
whose weighted sum is `x`.  A key miss (invalid symbol) raises `KeyError`
in the source; it is modeled by a junk all-zero tuple, unreachable for
valid constellation symbols. -/
def symbToSpins (k : ℕ) (x : ℚ) : List ℚ :=
  (((signTuples k).filter fun t => weightedSum t = x).headD (List.replicate k 0))

/-- `symbols_to_spins(symbols, modulation)`.  A symbol is a complex value
`(re, im)`; spins are rationals (±1 on valid inputs).  For BPSK the source
returns the (real-valued) symbol array unchanged; the flat list of real
parts models that array (valid BPSK symbols have zero imaginary part). -/
def symbolsToSpins (symbols : List CQ) (m : Modulation) : List ℚ :=
  match m with
  | BPSK => symbols.map (·.1)
  | QPSK => symbols.map (·.1) ++ symbols.map (·.2)
  | QAM16 | QAM64 =>
    let k := spinsPerRealSymbol m
    ((List.range k).map fun prec =>
      (symbols.map fun s => (symbToSpins k s.1).getD prec 0)
      ++ (symbols.map fun s => (symbToSpins k s.2).getD prec 0)).flatten

/-- `spins_to_symbols(spins, modulation, num_transmitters)`.  The
`num_amps`-by-`2*num_transmitters` reshape followed by the weighted plane
sums is expressed by direct row-major indexing
(`reshape(spins, (a, c))[i][j] = spins[i*c + j]`).  The branch
`num_transmitters == num_spins` returns the spin array unchanged (a real
array, modeled by pairs with zero imaginary part). -/
def spinsToSymbols (spins : List ℚ) (m : Modulation) (numTransmitters : Option ℕ) :
    Except String (List CQ) := do
  let numSpins := spins.length
  let nt : ℕ ← match numTransmitters with
    | some t => pure t
    | none => match m with
      | BPSK => pure numSpins
      | QPSK => pure (numSpins / 2)
      | QAM16 => pure (numSpins / 4)
      | QAM64 => pure (numSpins / 6)
  if nt = numSpins then
    return spins.map fun s => (s, 0)
  else
    if 2 * nt = 0 then
      throw "ZeroDivisionError: divmod by zero"
    else
      let numAmps := numSpins / (2 * nt)
      let rem := numSpins % (2 * nt)
      if numAmps > 64 then
        throw "ValueError: complex encoding is limited to 64 bits"
      if rem ≠ 0 then
        throw "ValueError: num_spins must be divisible by num_transmitters"
      return (List.range nt).map fun j =>
        (((List.range numAmps).map fun i =>
            (2 : ℚ) ^ i * spins.getD (i * (2 * nt) + j) 0).sum,
         ((List.range numAmps).map fun i =>
            (2 : ℚ) ^ i * spins.getD (i * (2 * nt) + nt + j) 0).sum)

/-- Valid constellation real parts for one real dimension of a modulation:
the signed amplitude levels. -/
def validReals (m : Modulation) : List ℚ :=
  match m with
  | BPSK => [-1, 1]
  | QPSK => [-1, 1]
  | QAM16 => [-3, -1, 1, 3]
  | QAM64 => [-7, -5, -3, -1, 1, 3, 5, 7]

/-- A valid constellation symbol vector: real and imaginary parts on the
modulation's signed amplitude set, and (for BPSK, a real-valued array)
zero imaginary parts. -/
def validSymbols (m : Modulation) (v : List CQ) : Prop :=
  match m with
  | BPSK => ∀ s ∈ v, s.1 ∈ validReals BPSK ∧ s.2 = 0
  | _ => ∀ s ∈ v, s.1 ∈ validReals m ∧ s.2 ∈ validReals m

instance (m : Modulation) (v : List CQ) : Decidable (validSymbols m v) := by
  unfold validSymbols
  cases m <;> exact inferInstance

/-! General list indexing lemmas used by the codec proofs. -/

theorem getD_map_lt {α β : Type} (f : α → β) (l : List α) (j : ℕ) (d : α) (d' : β)
    (hj : j < l.length) : (l.map f).getD j d' = f (l.getD j d) := by
  induction l generalizing j with
  | nil => simp at hj
  | cons a tl ih =>
    cases j with
    | zero => simp [List.getD]
    | succ j =>
      simp only [List.map_cons, List.getD_cons_succ]
      exact ih j (by simpa using hj)

theorem range_map_getD {α : Type} (l : List α) (d : α) :
    (List.range l.length).map (fun j => l.getD j d) = l := by
  induction l with
  | nil => simp
  | cons a tl ih =>
    rw [List.length_cons, List.range_succ_eq_map, List.map_cons, List.map_map]
    simp only [List.getD_cons_zero]
    congr 1

theorem getD_append_lt {α : Type} (l l' : List α) (j : ℕ) (d : α)
    (hj : j < l.length) : (l ++ l').getD j d = l.getD j d := by
  induction l generalizing j with
  | nil => simp at hj
  | cons a tl ih =>
    cases j with
    | zero => simp [List.getD]
    | succ j =>
      simp only [List.cons_append, List.getD_cons_succ]
      exact ih j (by simpa using hj)

theorem getD_append_len {α : Type} (l l' : List α) (j : ℕ) (d : α) :
    (l ++ l').getD (l.length + j) d = l'.getD j d := by
  induction l with
  | nil => simp
  | cons a tl ih => simpa [Nat.succ_add] using ih

theorem getD_flatten_uniform {α : Type} (L : List (List α)) (c : ℕ) (d : α)
    (hL : ∀ l ∈ L, l.length = c) (i j : ℕ) (hi : i < L.length) (hj : j < c) :
    L.flatten.getD (i * c + j) d = (L.getD i []).getD j d := by
  induction L generalizing i with
  | nil => simp at hi
  | cons hd tl ih =>
    cases i with
    | zero =>
      have hhd : hd.length = c := hL hd (List.mem_cons_self hd tl)
      simp only [List.flatten_cons, Nat.zero_mul, Nat.zero_add, List.getD_cons_zero]
      exact getD_append_lt hd tl.flatten j d (by rw [hhd]; exact hj)
    | succ i =>
      have hhd : hd.length = c := hL hd (List.mem_cons_self hd tl)
      have : (i + 1) * c + j = hd.length + (i * c + j) := by
        rw [hhd]; ring
      rw [List.flatten_cons, this, getD_append_len, List.getD_cons_succ]
      exact ih (fun l hl => hL l (List.mem_cons_of_mem hd hl)) i
        (by simpa using hi)

theorem length_flatten_uniform {α : Type} (L : List (List α)) (c : ℕ)
    (hL : ∀ l ∈ L, l.length = c) : L.flatten.length = L.length * c := by
  induction L with
  | nil => simp
  | cons hd tl ih =>
    rw [List.flatten_cons, List.length_append, List.length_cons,
      hL hd (List.mem_cons_self hd tl),
      ih (fun l hl => hL l (List.mem_cons_of_mem hd hl))]
    ring

theorem getD_range_map {α : Type} (f : ℕ → α) (k i : ℕ) (d : α) (hi : i < k) :
    ((List.range k).map f).getD i d = f i := by
  rw [getD_map_lt f (List.range k) i 0 d (by simpa using hi),
    List.getD_eq_getElem (List.range k) 0 (by simpa using hi)]
  simp

/-! Round-trip of the symbol/spin codec. -/

/-- Concrete content of the one-bit `symb_to_spins` table. -/
theorem symbToSpins_one_eval :
    symbToSpins 1 (-1) = [-1] ∧ symbToSpins 1 1 = [1] := by
  norm_num [symbToSpins, signTuples, weightedSum, List.filter_cons,
    List.range_succ, List.getElem?_cons_zero, List.getElem?_cons_succ]

/-- Concrete content of the two-bit (16QAM) `symb_to_spins` table. -/
theorem symbToSpins_two_eval :
    symbToSpins 2 (-3) = [-1, -1] ∧ symbToSpins 2 (-1) = [1, -1] ∧
    symbToSpins 2 1 = [-1, 1] ∧ symbToSpins 2 3 = [1, 1] := by
  norm_num [symbToSpins, signTuples, weightedSum, List.filter_cons,
    List.range_succ, List.getElem?_cons_zero, List.getElem?_cons_succ]

/-- Concrete content of the three-bit (64QAM) `symb_to_spins` table. -/
theorem symbToSpins_three_eval :
    symbToSpins 3 (-7) = [-1, -1, -1] ∧ symbToSpins 3 (-5) = [1, -1, -1] ∧
    symbToSpins 3 (-3) = [-1, 1, -1] ∧ symbToSpins 3 (-1) = [1, 1, -1] ∧
    symbToSpins 3 1 = [-1, -1, 1] ∧ symbToSpins 3 3 = [1, -1, 1] ∧
    symbToSpins 3 5 = [-1, 1, 1] ∧ symbToSpins 3 7 = [1, 1, 1] := by
  norm_num [symbToSpins, signTuples, weightedSum, List.filter_cons,
    List.range_succ, List.getElem?_cons_zero, List.getElem?_cons_succ]

/-- The weighted plane sum inverts the one-bit table on the QPSK levels. -/
theorem qpsk_table_decode : ∀ x ∈ validReals QPSK,
    ((List.range 1).map fun i => (2:ℚ)^i * (symbToSpins 1 x).getD i 0).sum = x := by
  intro x hx
  fin_cases hx <;>
    norm_num [symbToSpins_one_eval.1, symbToSpins_one_eval.2, List.range_succ]

/-- The weighted plane sum inverts the two-bit table on the 16QAM levels. -/
theorem qam16_table_decode : ∀ x ∈ validReals QAM16,
    ((List.range 2).map fun i => (2:ℚ)^i * (symbToSpins 2 x).getD i 0).sum = x := by
  obtain ⟨e1, e2, e3, e4⟩ := symbToSpins_two_eval
  intro x hx
  fin_cases hx <;> norm_num [e1, e2, e3, e4, List.range_succ]

/-- The weighted plane sum inverts the three-bit table on the 64QAM levels. -/
theorem qam64_table_decode : ∀ x ∈ validReals QAM64,
    ((List.range 3).map fun i => (2:ℚ)^i * (symbToSpins 3 x).getD i 0).sum = x := by
  obtain ⟨e1, e2, e3, e4, e5, e6, e7, e8⟩ := symbToSpins_three_eval
  intro x hx
  fin_cases hx <;> norm_num [e1, e2, e3, e4, e5, e6, e7, e8, List.range_succ]

/-- The one-bit table is the identity on the QPSK levels. -/
theorem qpsk_table_id : ∀ x ∈ validReals QPSK, (symbToSpins 1 x).getD 0 0 = x := by
  intro x hx
  fin_cases hx <;> norm_num [symbToSpins_one_eval.1, symbToSpins_one_eval.2]

theorem getD_append_at {α : Type} (l l' : List α) (c j : ℕ) (d : α)
    (hc : l.length = c) : (l ++ l').getD (c + j) d = l'.getD j d := by
  subst hc; exact getD_append_len l l' j d

theorem spins_decode_encode_aux (m : Modulation) (v : List CQ) (k : ℕ)
    (hk : 1 ≤ k) (hk64 : k ≤ 64)
    (hdec : ∀ s ∈ v,
      ((List.range k).map fun i => (2:ℚ)^i * (symbToSpins k s.1).getD i 0).sum = s.1 ∧
      ((List.range k).map fun i => (2:ℚ)^i * (symbToSpins k s.2).getD i 0).sum = s.2) :
    spinsToSymbols
      (((List.range k).map fun prec =>
        (v.map fun s => (symbToSpins k s.1).getD prec 0)
        ++ (v.map fun s => (symbToSpins k s.2).getD prec 0)).flatten)
      m (some v.length) = Except.ok v := by
  rcases Nat.eq_zero_or_pos v.length with ht0 | htpos
  · have hv : v = [] := List.length_eq_zero.mp ht0
    subst hv
    have hz : ((List.range k).map fun prec =>
        (([] : List CQ).map fun s => (symbToSpins k s.1).getD prec 0)
        ++ (([] : List CQ).map fun s => (symbToSpins k s.2).getD prec 0)).flatten
        = ([] : List ℚ) := by simp
    rw [hz]
    rfl
  · set t := v.length with ht
    set spins : List ℚ := ((List.range k).map fun prec =>
        (v.map fun s => (symbToSpins k s.1).getD prec 0)
        ++ (v.map fun s => (symbToSpins k s.2).getD prec 0)).flatten with hspins
    set groups : List (List ℚ) := (List.range k).map fun prec =>
        (v.map fun s => (symbToSpins k s.1).getD prec 0)
        ++ (v.map fun s => (symbToSpins k s.2).getD prec 0) with hgroups
    have hglen : ∀ g ∈ groups, g.length = 2 * t := by
      intro g hg
      obtain ⟨prec, _, rfl⟩ := List.mem_map.mp hg
      simp only [List.length_append, List.length_map, ← ht]
      ring
    have hlen : spins.length = k * (2 * t) := by
      rw [hspins, length_flatten_uniform groups (2 * t) hglen, hgroups,
        List.length_map, List.length_range]
    have h2t : ¬ (2 * t = 0) := by omega
    have hne : ¬ (t = spins.length) := by
      rw [hlen]
      have h1 : t < 2 * t := by omega
      have h2 : 2 * t ≤ k * (2 * t) := Nat.le_mul_of_pos_left _ hk
      omega
    have hamps : spins.length / (2 * t) = k := by
      rw [hlen]
      exact Nat.mul_div_cancel k (by omega)
    have hrem : spins.length % (2 * t) = 0 := by
      rw [hlen]
      exact Nat.mul_mod_left k (2 * t)
    have hre : ∀ j, j < t → ∀ i ∈ List.range k,
        spins.getD (i * (2 * t) + j) 0 = (symbToSpins k (v.getD j (0,0)).1).getD i 0 := by
      intro j hjlt i hi
      have hik : i < k := List.mem_range.mp hi
      rw [hspins, getD_flatten_uniform groups (2 * t) 0 hglen i j
          (by rw [hgroups, List.length_map, List.length_range]; exact hik) (by omega),
        hgroups, getD_range_map _ k i [] hik,
        getD_append_lt _ _ j 0 (by rw [List.length_map]; exact hjlt),
        getD_map_lt _ v j (0,0) 0 hjlt]
    have him : ∀ j, j < t → ∀ i ∈ List.range k,
        spins.getD (i * (2 * t) + t + j) 0 = (symbToSpins k (v.getD j (0,0)).2).getD i 0 := by
      intro j hjlt i hi
      have hik : i < k := List.mem_range.mp hi
      rw [Nat.add_assoc, hspins, getD_flatten_uniform groups (2 * t) 0 hglen i (t + j)
          (by rw [hgroups, List.length_map, List.length_range]; exact hik) (by omega),
        hgroups, getD_range_map _ k i [] hik,
        getD_append_at _ _ t j 0 (by rw [List.length_map, ht]),
        getD_map_lt _ v j (0,0) 0 hjlt]
    have hfinal : (List.range t).map (fun j =>
        ((((List.range (spins.length / (2 * t))).map fun i =>
            (2:ℚ)^i * spins.getD (i * (2 * t) + j) 0).sum),
         (((List.range (spins.length / (2 * t))).map fun i =>
            (2:ℚ)^i * spins.getD (i * (2 * t) + t + j) 0).sum))) = v := by
      rw [hamps]
      have hcg : ∀ j ∈ List.range t, (
          (((List.range k).map fun i => (2:ℚ)^i * spins.getD (i * (2 * t) + j) 0).sum),
          (((List.range k).map fun i => (2:ℚ)^i * spins.getD (i * (2 * t) + t + j) 0).sum))
          = v.getD j (0,0) := by
        intro j hj
        have hjlt : j < t := List.mem_range.mp hj
        have hmem : v.getD j (0,0) ∈ v := by
          rw [List.getD_eq_getElem v (0,0) hjlt]
          exact List.getElem_mem hjlt
        obtain ⟨hd1, hd2⟩ := hdec (v.getD j (0,0)) hmem
        have e1 : ((List.range k).map fun i => (2:ℚ)^i * spins.getD (i * (2 * t) + j) 0)
            = ((List.range k).map fun i =>
                (2:ℚ)^i * (symbToSpins k (v.getD j (0,0)).1).getD i 0) :=
          List.map_congr_left (fun i hi => by rw [hre j hjlt i hi])
        have e2 : ((List.range k).map fun i => (2:ℚ)^i * spins.getD (i * (2 * t) + t + j) 0)
            = ((List.range k).map fun i =>
                (2:ℚ)^i * (symbToSpins k (v.getD j (0,0)).2).getD i 0) :=
          List.map_congr_left (fun i hi => by rw [him j hjlt i hi])
        rw [e1, e2, hd1, hd2]
      rw [List.map_congr_left hcg, ht]
      exact range_map_getD v (0,0)
    simp only [spinsToSymbols, pure_bind, ← ht, if_neg hne, if_neg h2t,
      ← hspins]
    rw [if_neg (by rw [hamps]; omega)]
    rw [if_neg (by rw [hrem]; simp)]
    rw [hfinal]
    rfl

/-- C1: for every supported modulation and every vector of valid
constellation symbols, `spins_to_symbols(symbols_to_spins(v, m), m, len(v))`
returns `v` exactly. -/
theorem C1_roundtrip_symbols_spins (m : Modulation) (v : List CQ)
    (hv : validSymbols m v) :
    spinsToSymbols (symbolsToSpins v m) m (some v.length) = Except.ok v := by
  cases m with
  | BPSK =>
    simp only [symbolsToSpins, spinsToSymbols, pure_bind, List.length_map]
    rw [if_pos trivial, List.map_map]
    have hid : v.map ((fun s => ((s : ℚ), (0:ℚ))) ∘ (·.1)) = v := by
      have h1 : ∀ s ∈ v, ((fun s => ((s : ℚ), (0:ℚ))) ∘ (·.1)) s = id s := by
        intro s hs
        have h2 := (hv s hs).2
        simp only [Function.comp, id]
        exact Prod.ext rfl h2.symm
      rw [List.map_congr_left h1, List.map_id]
    rw [hid]
    rfl
  | QPSK =>
    have hA : (v.map fun s => (symbToSpins 1 s.1).getD 0 0) = v.map (·.1) :=
      List.map_congr_left (fun s hs => qpsk_table_id s.1 (hv s hs).1)
    have hB : (v.map fun s => (symbToSpins 1 s.2).getD 0 0) = v.map (·.2) :=
      List.map_congr_left (fun s hs => qpsk_table_id s.2 (hv s hs).2)
    have henc : symbolsToSpins v QPSK =
        ((List.range 1).map fun prec =>
          (v.map fun s => (symbToSpins 1 s.1).getD prec 0)
          ++ (v.map fun s => (symbToSpins 1 s.2).getD prec 0)).flatten := by
      simp only [symbolsToSpins, List.range_succ, List.range_zero,
        List.nil_append, List.map_cons, List.map_nil, List.flatten_cons,
        List.flatten_nil, List.append_nil, hA, hB]
    rw [henc]
    exact spins_decode_encode_aux QPSK v 1 (by omega) (by omega)
      (fun s hs => ⟨qpsk_table_decode s.1 (hv s hs).1,
                    qpsk_table_decode s.2 (hv s hs).2⟩)
  | QAM16 =>
    exact spins_decode_encode_aux QAM16 v 2 (by omega) (by omega)
      (fun s hs => ⟨qam16_table_decode s.1 (hv s hs).1,
                    qam16_table_decode s.2 (hv s hs).2⟩)
  | QAM64 =>
    exact spins_decode_encode_aux QAM64 v 3 (by omega) (by omega)
      (fun s hs => ⟨qam64_table_decode s.1 (hv s hs).1,
                    qam64_table_decode s.2 (hv s hs).2⟩)

/-- C1 witness: the round trip at a concrete valid 16QAM vector. -/
theorem C1_roundtrip_symbols_spins_witness :
    validSymbols QAM16 [((3:ℚ), 1), ((-1:ℚ), -3)] ∧
    spinsToSymbols (symbolsToSpins [((3:ℚ), 1), ((-1:ℚ), -3)] QAM16) QAM16
      (some 2) = Except.ok [((3:ℚ), 1), ((-1:ℚ), -3)] :=
  ⟨by simp [validSymbols, validReals],
   C1_roundtrip_symbols_spins QAM16 [((3:ℚ), 1), ((-1:ℚ), -3)]
     (by simp [validSymbols, validReals])⟩

/-! Bit-plane ordering of the encoder (claim C7). -/

/-- Spec-side formula for the significance-`p` spin of a valid symbol
component `x` under the linear encoding `x = Σ_p s_p 2^p`, `s_p ∈ {-1, 1}`:
the `p`-th binary digit of `(x + 2^k - 1) / 2`, rescaled to `±1`.  This is
independent of the source's lookup table. -/
def planeSpin (k p : ℕ) (x : ℚ) : ℚ :=
  ((2 * ((⌊x⌋ + (2 ^ k - 1)) / 2 / 2 ^ p % 2) - 1 : ℤ) : ℚ)

/-- The spin layout asserted by the claim: same-significance spins grouped
together (real parts then imaginary parts), most-significant bit-plane
group first. -/
def msbFirstSpins (v : List CQ) (k : ℕ) : List ℚ :=
  ((List.range k).reverse.map fun prec =>
    (v.map fun s => planeSpin k prec s.1)
    ++ (v.map fun s => planeSpin k prec s.2)).flatten

/-- The same layout with the least-significant bit-plane group first. -/
def lsbFirstSpins (v : List CQ) (k : ℕ) : List ℚ :=
  ((List.range k).map fun prec =>
    (v.map fun s => planeSpin k prec s.1)
    ++ (v.map fun s => planeSpin k prec s.2)).flatten

/-- The 16QAM lookup table agrees with the plane-spin formula. -/
theorem table_planeSpin_two : ∀ x ∈ validReals QAM16, ∀ p, p < 2 →
    (symbToSpins 2 x).getD p 0 = planeSpin 2 p x := by
  obtain ⟨e1, e2, e3, e4⟩ := symbToSpins_two_eval
  intro x hx p hp
  fin_cases hx <;> interval_cases p <;>
    norm_num [e1, e2, e3, e4, planeSpin]

/-- The 64QAM lookup table agrees with the plane-spin formula. -/
theorem table_planeSpin_three : ∀ x ∈ validReals QAM64, ∀ p, p < 3 →
    (symbToSpins 3 x).getD p 0 = planeSpin 3 p x := by
  obtain ⟨e1, e2, e3, e4, e5, e6, e7, e8⟩ := symbToSpins_three_eval
  intro x hx p hp
  fin_cases hx <;> interval_cases p <;>
    norm_num [e1, e2, e3, e4, e5, e6, e7, e8, planeSpin]

/-- C7 counterexample: at the valid 16QAM vector `[3 + 1j]` the encoder
emits the least-significant bit-plane group first, not the claimed
most-significant-first layout. -/
theorem C7_counterexample_msb_first :
    symbolsToSpins [((3:ℚ), 1)] QAM16 = [1, -1, 1, 1] ∧
    msbFirstSpins [((3:ℚ), 1)] 2 = [1, 1, 1, -1] ∧
    symbolsToSpins [((3:ℚ), 1)] QAM16 ≠ msbFirstSpins [((3:ℚ), 1)] 2 := by
  obtain ⟨e1, e2, e3, e4⟩ := symbToSpins_two_eval
  refine ⟨?_, ?_, ?_⟩
  · norm_num [symbolsToSpins, spinsPerRealSymbol, List.range_succ, e3, e4]
  · norm_num [msbFirstSpins, planeSpin, List.range_succ]
  · intro hcontra
    have h1 : symbolsToSpins [((3:ℚ), 1)] QAM16 = [1, -1, 1, 1] := by
      norm_num [symbolsToSpins, spinsPerRealSymbol, List.range_succ, e3, e4]
    have h2 : msbFirstSpins [((3:ℚ), 1)] 2 = [1, 1, 1, -1] := by
      norm_num [msbFirstSpins, planeSpin, List.range_succ]
    rw [h1, h2] at hcontra
    have hbad := congrArg (fun l => l.getD 1 (0:ℚ)) hcontra
    norm_num [List.getD_cons_succ, List.getD_cons_zero] at hbad

/-- C7 amended: for 16QAM and 64QAM the encoder groups all
same-significance spins together (real-part spins followed by
imaginary-part spins within each group), with the LEAST-significant
bit-plane group first in the output. -/
theorem C7_amended_lsb_first (m : Modulation) (v : List CQ)
    (hm : m = QAM16 ∨ m = QAM64) (hv : validSymbols m v) :
    symbolsToSpins v m = lsbFirstSpins v (spinsPerRealSymbol m) := by
  rcases hm with rfl | rfl
  · show ((List.range 2).map fun prec =>
        (v.map fun s => (symbToSpins 2 s.1).getD prec 0)
        ++ (v.map fun s => (symbToSpins 2 s.2).getD prec 0)).flatten = _
    unfold lsbFirstSpins
    refine congrArg List.flatten (List.map_congr_left fun prec hprec => ?_)
    have hp : prec < 2 := List.mem_range.mp hprec
    refine congrArg₂ (· ++ ·)
      (List.map_congr_left fun s hs => table_planeSpin_two s.1 (hv s hs).1 prec hp)
      (List.map_congr_left fun s hs => table_planeSpin_two s.2 (hv s hs).2 prec hp)
  · show ((List.range 3).map fun prec =>
        (v.map fun s => (symbToSpins 3 s.1).getD prec 0)
        ++ (v.map fun s => (symbToSpins 3 s.2).getD prec 0)).flatten = _
    unfold lsbFirstSpins
    refine congrArg List.flatten (List.map_congr_left fun prec hprec => ?_)
    have hp : prec < 3 := List.mem_range.mp hprec
    refine congrArg₂ (· ++ ·)
      (List.map_congr_left fun s hs => table_planeSpin_three s.1 (hv s hs).1 prec hp)
      (List.map_congr_left fun s hs => table_planeSpin_three s.2 (hv s hs).2 prec hp)

/-- C7 amended witness: the least-significant-first layout at a concrete
valid 16QAM vector. -/
theorem C7_amended_lsb_first_witness :
    validSymbols QAM16 [((3:ℚ), 1)] ∧
    symbolsToSpins [((3:ℚ), 1)] QAM16 = lsbFirstSpins [((3:ℚ), 1)] 2 :=
  ⟨by simp [validSymbols, validReals],
   C7_amended_lsb_first QAM16 [((3:ℚ), 1)] (Or.inl rfl)
     (by simp [validSymbols, validReals])⟩

/-! Error behavior of the decoder (claim C8). -/

/-- C8 counterexample: with `len(spins) = 1` and declared transmitter
count `t = 1`, the spin count is not divisible by `2*t`, yet the decoder
returns without error (the `num_transmitters == num_spins` branch skips
every check). -/
theorem C8_counterexample_no_error :
    spinsToSymbols [(1:ℚ)] BPSK (some 1) = Except.ok [((1:ℚ), 0)] ∧
    ¬ (2 * 1 ∣ ([(1:ℚ)] : List ℚ).length) := by
  constructor
  · rfl
  · simp

/-- C8 amended: for a declared transmitter count `t`, the decoder returns
without error iff `len(s) = t` (spins returned unchanged, no checks run)
or `t > 0`, `2*t` divides `len(s)` and the implied bit-plane count
`len(s) / (2*t)` is at most 64; in every other case it fails (for `t = 0`
with nonempty spins the failure is the `divmod` division by zero). -/
theorem C8_amended_error_characterization (spins : List ℚ) (m : Modulation)
    (t : ℕ) :
    ((spinsToSymbols spins m (some t)).isOk = true) ↔
      (spins.length = t ∨
       (0 < t ∧ 2 * t ∣ spins.length ∧ spins.length / (2 * t) ≤ 64)) := by
  simp only [spinsToSymbols, pure_bind]
  by_cases h1 : t = spins.length
  · rw [if_pos h1]
    constructor
    · intro _
      exact Or.inl h1.symm
    · intro _
      rfl
  · rw [if_neg h1]
    by_cases h2 : 2 * t = 0
    · rw [if_pos h2]
      have ht0 : t = 0 := by omega
      simp only [Except.isOk, Except.toBool, throw, throwThe, MonadExceptOf.throw]
      constructor
      · intro hfalse
        cases hfalse
      · intro hr
        rcases hr with hl | ⟨hpos, _, _⟩
        · exact absurd hl (fun he => h1 he.symm)
        · omega
    · rw [if_neg h2]
      by_cases h3 : spins.length / (2 * t) > 64
      · rw [if_pos h3]
        simp only [bind, Except.bind, throw, throwThe, MonadExceptOf.throw,
          Except.isOk, Except.toBool]
        constructor
        · intro hfalse
          cases hfalse
        · intro hr
          rcases hr with hl | ⟨_, _, hle⟩
          · exact absurd hl (fun he => h1 he.symm)
          · omega
      · rw [if_neg h3]
        by_cases h4 : spins.length % (2 * t) ≠ 0
        · rw [if_pos h4]
          simp only [bind, Except.bind, throw, throwThe, MonadExceptOf.throw,
            Except.isOk, Except.toBool]
          constructor
          · intro hfalse
            cases hfalse
          · intro hr
            rcases hr with hl | ⟨_, hdvd, _⟩
            · exact absurd hl (fun he => h1 he.symm)
            · exact absurd (Nat.dvd_iff_mod_eq_zero.mp hdvd) h4
        · rw [if_neg h4]
          simp only [bind, Except.bind, Except.isOk, Except.toBool]
          constructor
          · intro _
            right
            refine ⟨by omega, ?_, by omega⟩
            exact Nat.dvd_iff_mod_eq_zero.mpr (by omega)
          · intro _
            rfl

/-! The quadratic-form builder (claim C4). -/

/-- Flatten an `(n, 1)` column array to a flat vector (`y[:, 0]`). -/
def flattenCol (M : List (List CQ)) : List CQ := M.map fun r => r.headD (0, 0)

theorem dotC_eq_range_sum (a b : List CQ) (h : a.length = b.length) :
    dotC a b = ((List.range a.length).map fun i =>
      cmul (a.getD i (0,0)) (b.getD i (0,0))).sum := by
  induction a generalizing b with
  | nil => simp [dotC]
  | cons x xs ih =>
    cases b with
    | nil => simp at h
    | cons z zs =>
      have hlen : xs.length = zs.length := by simpa using h
      have hx := ih zs hlen
      rw [dotC, List.zipWith_cons_cons, List.sum_cons, List.length_cons,
        List.range_succ_eq_map, List.map_cons, List.map_map, List.sum_cons]
      congr 1

theorem dotC_conj_self (l : List CQ) :
    dotC (l.map conjC) l =
      ((l.map fun c => c.2 * c.2).sum + (l.map fun c => c.1 * c.1).sum, 0) := by
  induction l with
  | nil => simp [dotC]
  | cons c cs ih =>
    rw [List.map_cons, dotC, List.zipWith_cons_cons, List.sum_cons]
    rw [dotC] at ih
    rw [ih]
    simp only [cmul, conjC, List.map_cons, List.sum_cons, Prod.mk_add_mk]
    rw [Prod.mk.injEq]
    constructor <;> ring

theorem dotC_zero_right (a l : List CQ) (hl : ∀ c ∈ l, c = (0,0)) :
    dotC a l = (0, 0) := by
  induction a generalizing l with
  | nil => simp [dotC]
  | cons x xs ih =>
    cases l with
    | nil => simp [dotC]
    | cons z zs =>
      have hz : z = (0,0) := hl z (List.mem_cons_self z zs)
      rw [dotC, List.zipWith_cons_cons, List.sum_cons, hz]
      have := ih zs (fun c hc => hl c (List.mem_cons_of_mem z hc))
      rw [dotC] at this
      rw [this]
      simp [cmul]

/-- C4: `quadratic_form(y, F)` returns `offset = y^H y` (a real scalar),
`h = -2 F^H y` and `J = F^H F` (entrywise, with the matching dtype flags);
with all-zero `y` the offset and `h` vanish; and it fails whenever `y` is
not a single column or `F`'s row count differs from `y`'s length. -/
theorem C4_quadratic_form :
    (∀ (y F : NDMat) (n : ℕ),
      (∀ r ∈ y.entries, r.length = 1) → y.entries.length = n →
      F.entries.length = n →
      ∃ off h J, quadraticForm y F = Except.ok (off, h, J) ∧
        off = (dotC ((flattenCol y.entries).map conjC) (flattenCol y.entries)).1 ∧
        (dotC ((flattenCol y.entries).map conjC) (flattenCol y.entries)).2 = 0 ∧
        h.entries.length = numCols F.entries ∧ h.cplx = (F.cplx || y.cplx) ∧
        (∀ i, i < numCols F.entries → h.entries.getD i (0,0) =
          cmul (-2, 0) (((List.range n).map fun kk =>
            cmul (conjC ((F.entries.getD kk []).getD i (0,0)))
                 ((flattenCol y.entries).getD kk (0,0))).sum)) ∧
        J.entries.length = numCols F.entries ∧ J.cplx = F.cplx ∧
        (∀ i j, i < numCols F.entries → j < numCols F.entries →
          (J.entries.getD i []).getD j (0,0) =
            ((List.range n).map fun kk =>
              cmul (conjC ((F.entries.getD kk []).getD i (0,0)))
                   ((F.entries.getD kk []).getD j (0,0))).sum) ∧
        ((∀ c ∈ flattenCol y.entries, c = (0,0)) →
          off = 0 ∧ ∀ e ∈ h.entries, e = (0,0))) ∧
    (∀ (y F : NDMat),
      ((∃ r ∈ y.entries, r.length ≠ 1) ∨ F.entries.length ≠ y.entries.length) →
      ∃ msg, quadraticForm y F = Except.error msg) := by
  constructor
  · intro y F n hy hyn hFn
    have hall : (y.entries.all fun r => r.length = 1) = true := by
      rw [List.all_eq_true]
      intro r hr
      simpa using hy r hr
    have hok : quadraticForm y F = Except.ok
        ((((flattenCol y.entries).map fun c => c.2 * c.2).sum
          + ((flattenCol y.entries).map fun c => c.1 * c.1).sum),
         ⟨scaleC (-2, 0) (matVec (conjTransposeM F.entries) (flattenCol y.entries)),
          F.cplx || y.cplx⟩,
         ⟨matMulM (conjTransposeM F.entries) F.entries, F.cplx⟩) := by
      unfold quadraticForm
      rw [if_neg (by rw [hall]; simp), if_neg (by omega)]
      rfl
    refine ⟨_, _, _, hok, ?_, ?_, ?_, ?_, ?_, ?_, ?_, ?_, ?_⟩
    · -- offset equals the real part of y^H y
      rw [dotC_conj_self]
    · rw [dotC_conj_self]
    · simp [scaleC, matVec, conjTransposeM]
    · rfl
    · -- h entries
      intro i hi
      have hmv : (matVec (conjTransposeM F.entries) (flattenCol y.entries)).length
          = numCols F.entries := by
        simp [matVec, conjTransposeM]
      rw [scaleC, getD_map_lt (cmul (-2,0)) _ i (0,0) (0,0) (by rw [hmv]; exact hi)]
      congr 1
      rw [matVec, getD_map_lt _ _ i [] (0,0)
          (by simp [conjTransposeM]; exact hi),
        conjTransposeM, getD_range_map _ _ i [] hi]
      rw [dotC_eq_range_sum _ _ (by simp [flattenCol, hFn, hyn]),
        List.length_map, hFn]
      refine congrArg List.sum (List.map_congr_left fun kk hkk => ?_)
      have hkn : kk < n := List.mem_range.mp hkk
      rw [getD_map_lt _ _ kk [] (0,0) (by rw [hFn]; exact hkn)]
    · simp [matMulM, conjTransposeM]
    · rfl
    · -- J entries
      intro i j hi hj
      rw [matMulM, getD_map_lt _ _ i [] []
          (by simp [conjTransposeM]; exact hi),
        conjTransposeM, getD_range_map _ _ i [] hi,
        getD_range_map _ _ j (0,0) hj]
      rw [dotC_eq_range_sum _ _ (by simp [hFn]), List.length_map, hFn]
      refine congrArg List.sum (List.map_congr_left fun kk hkk => ?_)
      have hkn : kk < n := List.mem_range.mp hkk
      rw [getD_map_lt _ _ kk [] (0,0) (by rw [hFn]; exact hkn),
        getD_map_lt _ _ kk [] (0,0) (by rw [hFn]; exact hkn)]
    · -- all-zero y
      intro hz
      constructor
      · have h1 : ((flattenCol y.entries).map fun c => c.2 * c.2).sum = 0 :=
          List.sum_eq_zero fun x hx => by
            obtain ⟨c, hc, rfl⟩ := List.mem_map.mp hx
            rw [hz c hc]; ring
        have h2 : ((flattenCol y.entries).map fun c => c.1 * c.1).sum = 0 :=
          List.sum_eq_zero fun x hx => by
            obtain ⟨c, hc, rfl⟩ := List.mem_map.mp hx
            rw [hz c hc]; ring
        show ((flattenCol y.entries).map fun c => c.2 * c.2).sum
            + ((flattenCol y.entries).map fun c => c.1 * c.1).sum = 0
        rw [h1, h2]; ring
      · intro e he
        obtain ⟨z, hzmem, rfl⟩ := List.mem_map.mp he
        obtain ⟨row, _, rfl⟩ := List.mem_map.mp hzmem
        rw [dotC_zero_right row (flattenCol y.entries) hz]
        simp [cmul]
  · intro y F hbad
    by_cases hall : (y.entries.all fun r => r.length = 1) = true
    · have hlen : F.entries.length ≠ y.entries.length := by
        rcases hbad with ⟨r, hr, hbadr⟩ | h
        · exact absurd (by simpa using (List.all_eq_true.mp hall r hr)) hbadr
        · exact h
      refine ⟨"ValueError: F should have shape [n, m] for some m, n", ?_⟩
      unfold quadraticForm
      rw [if_neg (by rw [hall]; simp), if_pos hlen]
      rfl
    · refine ⟨"ValueError: y should have shape [n, 1] for some n", ?_⟩
      unfold quadraticForm
      rw [if_pos (by simpa using hall)]
      rfl

/-- C4 witness: the quadratic form at a concrete complex pair, and the
shape failure at a non-column `y`. -/
theorem C4_quadratic_form_witness :
    (∀ r ∈ ([[((1:ℚ), (2:ℚ))], [((3:ℚ), (-1:ℚ))]] : List (List CQ)), r.length = 1) ∧
    (∃ off h J, quadraticForm ⟨[[((1:ℚ), 2)], [((3:ℚ), -1)]], true⟩
        ⟨[[((1:ℚ), 0), ((0:ℚ), 1)], [((2:ℚ), 1), ((1:ℚ), 1)]], true⟩
        = Except.ok (off, h, J)) ∧
    (∃ msg, quadraticForm ⟨[[((1:ℚ), 2), ((5:ℚ), 5)]], true⟩
        ⟨[[((1:ℚ), 0)]], true⟩ = Except.error msg) := by
  refine ⟨by simp, ?_, ?_⟩
  · obtain ⟨off, h, J, hok, _⟩ :=
      C4_quadratic_form.1 ⟨[[((1:ℚ), 2)], [((3:ℚ), -1)]], true⟩
        ⟨[[((1:ℚ), 0), ((0:ℚ), 1)], [((2:ℚ), 1), ((1:ℚ), 1)]], true⟩ 2
        (by simp) rfl rfl
    exact ⟨off, h, J, hok⟩
  · exact C4_quadratic_form.2 ⟨[[((1:ℚ), 2), ((5:ℚ), 5)]], true⟩
      ⟨[[((1:ℚ), 0)]], true⟩ (Or.inl ⟨[((1:ℚ), 2), ((5:ℚ), 5)], by simp, by simp⟩)

/-! The real-domain projection (claim C5). -/

/-- The block layout asserted by the claim for the complex case:
`hR = [Re(h); Im(h)]` and `JR = [[Re(J), Im(J)], [Im(J)^T, Re(J)]]`
(top-right block `Im(J)`, bottom-left `Im(J)^T`), stated via the same
stacking helpers as the source. -/
def claimRealProjection (h : NDVec) (J : NDMat) (m : Modulation) :
    List ℚ × List (List ℚ) :=
  if m ≠ BPSK ∧ (h.cplx || J.cplx) then
    (h.entries.map (·.1) ++ h.entries.map (·.2),
     hcat (vcat (matRe J.entries) (transposeQ (matIm J.entries)))
          (vcat (matIm J.entries) (matRe J.entries)))
  else
    (h.entries.map (·.1), matRe J.entries)

/-- C5 counterexample: a complex pair with non-symmetric `Im(J)` on which
the source's block layout differs from the claimed one (`Im(J)` and
`Im(J)^T` are swapped). -/
theorem C5_counterexample_block_layout :
    realQuadraticForm ⟨[((1:ℚ), 2), ((3:ℚ), 4)], true⟩
      ⟨[[((0:ℚ), 0), ((0:ℚ), 1)], [((0:ℚ), 0), ((0:ℚ), 0)]], true⟩ QPSK
    ≠ claimRealProjection ⟨[((1:ℚ), 2), ((3:ℚ), 4)], true⟩
      ⟨[[((0:ℚ), 0), ((0:ℚ), 1)], [((0:ℚ), 0), ((0:ℚ), 0)]], true⟩ QPSK := by
  have hcond : (QPSK ≠ BPSK ∧ (((true : Bool) || true) = true)) :=
    ⟨(fun hh => by cases hh), rfl⟩
  have h1 : realQuadraticForm ⟨[((1:ℚ), 2), ((3:ℚ), 4)], true⟩
      ⟨[[((0:ℚ), 0), ((0:ℚ), 1)], [((0:ℚ), 0), ((0:ℚ), 0)]], true⟩ QPSK
      = ([1, 3, 2, 4],
         [[0, 0, 0, 0], [0, 0, 1, 0], [0, 1, 0, 0], [0, 0, 0, 0]]) := by
    rw [realQuadraticForm, if_pos hcond]
    norm_num [hcat, vcat, matRe, matIm, transposeQ, List.range_succ]
  have h2 : claimRealProjection ⟨[((1:ℚ), 2), ((3:ℚ), 4)], true⟩
      ⟨[[((0:ℚ), 0), ((0:ℚ), 1)], [((0:ℚ), 0), ((0:ℚ), 0)]], true⟩ QPSK
      = ([1, 3, 2, 4],
         [[0, 0, 0, 1], [0, 0, 0, 0], [0, 0, 0, 0], [1, 0, 0, 0]]) := by
    rw [claimRealProjection, if_pos hcond]
    norm_num [hcat, vcat, matRe, matIm, transposeQ, List.range_succ]
  intro hcontra
  rw [h1, h2] at hcontra
  have hbad := congrArg (fun p => ((p.2.getD 0 []).getD 3 (0:ℚ))) hcontra
  norm_num [List.getD_cons_succ, List.getD_cons_zero] at hbad

/-- C5 amended: for a complex-valued pair and a modulation other than BPSK
the projection returns `hR = [Re(h); Im(h)]` and the block matrix
`JR = [[Re(J), Im(J)^T], [Im(J), Re(J)]]` (top-right block `Im(J)^T`,
bottom-left `Im(J)`); for BPSK or real-dtype inputs it returns the real
parts of `h` and `J` unchanged. -/
theorem C5_amended_block_layout :
    (∀ (h : NDVec) (J : NDMat) (m : Modulation) (n : ℕ),
      m ≠ BPSK → (h.cplx || J.cplx) = true →
      J.entries.length = n → (∀ r ∈ J.entries, r.length = n) →
      realQuadraticForm h J m =
        (h.entries.map (·.1) ++ h.entries.map (·.2),
         vcat (hcat (matRe J.entries) (transposeQ (matIm J.entries)))
              (hcat (matIm J.entries) (matRe J.entries)))) ∧
    (∀ (h : NDVec) (J : NDMat) (m : Modulation),
      (m = BPSK ∨ (h.cplx || J.cplx) = false) →
      realQuadraticForm h J m = (h.entries.map (·.1), matRe J.entries)) := by
  constructor
  · intro h J m n hm hcplx hJn hJr
    have hlen2 : (matRe J.entries).length = (transposeQ (matIm J.entries)).length := by
      simp only [matRe, matIm, transposeQ, List.length_map, List.length_range]
      rcases hJ : J.entries with _ | ⟨r0, rest⟩
      · simp
      · have hr0 : r0.length = n :=
          hJr r0 (by rw [hJ]; exact List.mem_cons_self r0 rest)
        rw [hJ] at hJn
        simp only [List.map_cons, List.headD_cons, List.length_map, hr0]
        omega
    rw [realQuadraticForm, if_pos ⟨hm, by rw [hcplx]⟩]
    refine congrArg (Prod.mk _) ?_
    show hcat (matRe J.entries ++ matIm J.entries)
        (transposeQ (matIm J.entries) ++ matRe J.entries)
      = (hcat (matRe J.entries) (transposeQ (matIm J.entries)))
        ++ (hcat (matIm J.entries) (matRe J.entries))
    rw [hcat, hcat, hcat, List.zipWith_append _ _ _ _ _ hlen2]
  · intro h J m hm
    have hcond : ¬ (m ≠ BPSK ∧ ((h.cplx || J.cplx) = true)) := by
      rcases hm with rfl | hflag
      · rintro ⟨hne, _⟩
        exact hne rfl
      · rintro ⟨_, hflag2⟩
        rw [hflag] at hflag2
        cases hflag2
    rw [realQuadraticForm, if_neg hcond]

/-- C5 amended witness: the code's block layout at a concrete complex pair. -/
theorem C5_amended_block_layout_witness :
    realQuadraticForm ⟨[((1:ℚ), 2)], true⟩ ⟨[[((5:ℚ), 7)]], true⟩ QPSK =
      ([1, 2],
       vcat (hcat (matRe [[((5:ℚ), 7)]]) (transposeQ (matIm [[((5:ℚ), 7)]])))
            (hcat (matIm [[((5:ℚ), 7)]]) (matRe [[((5:ℚ), 7)]]))) := by
  have hth := C5_amended_block_layout.1 ⟨[((1:ℚ), 2)], true⟩ ⟨[[((5:ℚ), 7)]], true⟩
    QPSK 1 (fun hh => by cases hh) rfl rfl (by simp)
  simpa using hth

/-! The amplitude expansion (claim C6). -/

theorem ampWeights_two_eval : ampWeights 2 = [1, 2] := by
  norm_num [ampWeights, List.range_succ]

theorem ampWeights_three_eval : ampWeights 3 = [1, 2, 4] := by
  norm_num [ampWeights, List.range_succ]

/-- C6: BPSK and QPSK pass through unchanged; 16QAM returns
`h' = kron([1,2], h)` (explicitly `[h; 2h]`) and `J' = kron(outer, J)` of
shape `(2n, 2n)` with top-left block `J`; 64QAM does the same with weights
`[1, 2, 4]` and shape `(3n, 3n)`. -/
theorem C6_amplitude_expansion :
    (∀ (h : List ℚ) (J : List (List ℚ)),
      amplitudeModulatedQuadraticForm h J BPSK = (h, J) ∧
      amplitudeModulatedQuadraticForm h J QPSK = (h, J)) ∧
    (∀ (h : List ℚ) (J : List (List ℚ)) (n : ℕ),
      J.length = n → (∀ r ∈ J, r.length = n) →
      (amplitudeModulatedQuadraticForm h J QAM16).1 = h ++ h.map (2 * ·) ∧
      (amplitudeModulatedQuadraticForm h J QAM16).2.length = 2 * n ∧
      (∀ r ∈ (amplitudeModulatedQuadraticForm h J QAM16).2, r.length = 2 * n) ∧
      ((amplitudeModulatedQuadraticForm h J QAM16).2.take n).map
        (fun r => r.take n) = J) ∧
    (∀ (h : List ℚ) (J : List (List ℚ)) (n : ℕ),
      J.length = n → (∀ r ∈ J, r.length = n) →
      (amplitudeModulatedQuadraticForm h J QAM64).1
        = h ++ h.map (2 * ·) ++ h.map (4 * ·) ∧
      (amplitudeModulatedQuadraticForm h J QAM64).2.length = 3 * n ∧
      (∀ r ∈ (amplitudeModulatedQuadraticForm h J QAM64).2, r.length = 3 * n) ∧
      ((amplitudeModulatedQuadraticForm h J QAM64).2.take n).map
        (fun r => r.take n) = J) := by
  refine ⟨fun h J => ⟨rfl, rfl⟩, ?_, ?_⟩
  · intro h J n hJn hJr
    have houter : kronM ((ampWeights 2).map fun a => [a]) [ampWeights 2]
        = [[1, 2], [2, 4]] := by
      norm_num [ampWeights_two_eval, kronM]
    have hJA : (amplitudeModulatedQuadraticForm h J QAM16).2
        = (J.map fun brow => brow ++ brow.map (2 * ·))
          ++ (J.map fun brow => brow.map (2 * ·) ++ brow.map (4 * ·)) := by
      show kronM (kronM ((ampWeights 2).map fun a => [a]) [ampWeights 2]) J = _
      rw [houter]
      simp only [kronM, List.map_cons, List.map_nil, List.flatten_cons,
        List.flatten_nil, List.append_nil, one_mul, List.map_id']
    constructor
    · show kronVec (ampWeights 2) h = _
      rw [ampWeights_two_eval]
      simp [kronVec, one_mul]
    refine ⟨?_, ?_, ?_⟩
    · rw [hJA]
      simp [hJn]
      ring
    · intro r hr
      rw [hJA] at hr
      rcases List.mem_append.mp hr with hr1 | hr2
      · obtain ⟨brow, hb, rfl⟩ := List.mem_map.mp hr1
        simp [hJr brow hb]
        ring
      · obtain ⟨brow, hb, rfl⟩ := List.mem_map.mp hr2
        simp [hJr brow hb]
        ring
    · rw [hJA, List.take_left' (by rw [List.length_map]; exact hJn)]
      rw [List.map_map]
      have : ∀ brow ∈ J, ((fun r => r.take n) ∘ fun brow =>
          brow ++ brow.map (2 * ·)) brow = id brow := by
        intro brow hb
        simp only [Function.comp, id]
        exact List.take_left' (hJr brow hb)
      rw [List.map_congr_left this, List.map_id]
  · intro h J n hJn hJr
    have houter : kronM ((ampWeights 3).map fun a => [a]) [ampWeights 3]
        = [[1, 2, 4], [2, 4, 8], [4, 8, 16]] := by
      norm_num [ampWeights_three_eval, kronM]
    have hJA : (amplitudeModulatedQuadraticForm h J QAM64).2
        = (J.map fun brow => brow ++ (brow.map (2 * ·) ++ brow.map (4 * ·)))
          ++ ((J.map fun brow => brow.map (2 * ·)
                ++ (brow.map (4 * ·) ++ brow.map (8 * ·)))
          ++ (J.map fun brow => brow.map (4 * ·)
                ++ (brow.map (8 * ·) ++ brow.map (16 * ·)))) := by
      show kronM (kronM ((ampWeights 3).map fun a => [a]) [ampWeights 3]) J = _
      rw [houter]
      simp only [kronM, List.map_cons, List.map_nil, List.flatten_cons,
        List.flatten_nil, List.append_nil, one_mul, List.map_id']
    constructor
    · show kronVec (ampWeights 3) h = _
      rw [ampWeights_three_eval]
      simp [kronVec, one_mul, List.append_assoc]
    refine ⟨?_, ?_, ?_⟩
    · rw [hJA]
      simp [hJn]
      ring
    · intro r hr
      rw [hJA] at hr
      rcases List.mem_append.mp hr with hr1 | hr23
      · obtain ⟨brow, hb, rfl⟩ := List.mem_map.mp hr1
        simp [hJr brow hb]
        ring
      · rcases List.mem_append.mp hr23 with hr2 | hr3
        · obtain ⟨brow, hb, rfl⟩ := List.mem_map.mp hr2
          simp [hJr brow hb]
          ring
        · obtain ⟨brow, hb, rfl⟩ := List.mem_map.mp hr3
          simp [hJr brow hb]
          ring
    · rw [hJA, List.take_left' (by rw [List.length_map]; exact hJn)]
      rw [List.map_map]
      have : ∀ brow ∈ J, ((fun r => r.take n) ∘ fun brow =>
          brow ++ (brow.map (2 * ·) ++ brow.map (4 * ·))) brow = id brow := by
        intro brow hb
        simp only [Function.comp, id]
        exact List.take_left' (hJr brow hb)
      rw [List.map_congr_left this, List.map_id]

/-- C6 witness: the 16QAM expansion at a concrete `1×1` quadratic form. -/
theorem C6_amplitude_expansion_witness :
    (amplitudeModulatedQuadraticForm [(7:ℚ)] [[(5:ℚ)]] QAM16).1 = [7, 14] ∧
    (amplitudeModulatedQuadraticForm [(7:ℚ)] [[(5:ℚ)]] QAM16).2.length = 2 ∧
    ((amplitudeModulatedQuadraticForm [(7:ℚ)] [[(5:ℚ)]] QAM16).2.take 1).map
      (fun r => r.take 1) = [[(5:ℚ)]] := by
  obtain ⟨e1, e2, _, e4⟩ :=
    C6_amplitude_expansion.2.1 [(7:ℚ)] [[(5:ℚ)]] 1 rfl (by simp)
  refine ⟨?_, ?_, ?_⟩
  · rw [e1]
    norm_num
  · rw [e2]
  · rw [e4]

/-! Random sources and synthetic channel/signal generation. -/

/-- The explicit seed-derived random source (`np.random.RandomState`):
a stream of pre-drawn values with a cursor.  The Gaussian distribution
itself is not modeled; the stream supplies whatever values the draws
return. -/
structure RNG where
  seq : ℕ → ℚ
  pos : ℕ

/-- Draw `n` values from the explicit random source, advancing it. -/
def RNG.draw (r : RNG) (n : ℕ) : List ℚ × RNG :=
  ((List.range n).map fun i => r.seq (r.pos + i), ⟨r.seq, r.pos + n⟩)

/-- The ambient process-wide generator (`np.random`), a separate mutable
stream; `np.random.choice` is modeled as indexing the amplitude list by
the stream's next natural draws. -/
structure Globals where
  seq : ℕ → ℕ
  pos : ℕ

/-- `np.random.choice(amps, size=n)` on the ambient generator. -/
def Globals.choice (g : Globals) (amps : List ℚ) (n : ℕ) : List ℚ × Globals :=
  ((List.range n).map fun i => amps.getD (g.seq (g.pos + i) % amps.length) 0,
   ⟨g.seq, g.pos + n⟩)

/-- `F_distribution` first component. -/
inductive FShape where
  | Normal | Binary
deriving DecidableEq, Repr

/-- `F_distribution` second component. -/
inductive FDomain where
  | Real | Complex
deriving DecidableEq, Repr

/-- `create_channel(num_receivers, num_transmitters, F_distribution,
random_state)`: draws an `(nr, nt)` channel from the explicit random
source; returns the channel and `channel_power * num_transmitters`, where
`channel_power` is 1 for real-domain and 2 for complex-domain channels.
Binary `randint` draws are modeled by the `1 - 2*draw` transform of the
stream. -/
def createChannel (nr nt : ℕ) (Fdist : Option (FShape × FDomain))
    (rng : RNG) : NDMat × ℚ × RNG :=
  match Fdist.getD (FShape.Normal, FDomain.Complex) with
  | (FShape.Normal, FDomain.Real) =>
      let p := rng.draw (nr * nt)
      (⟨(List.range nr).map fun r => (List.range nt).map fun c =>
          ((p.1.getD (r * nt + c) 0, 0) : CQ), false⟩, (1 : ℚ) * nt, p.2)
  | (FShape.Normal, FDomain.Complex) =>
      let p := rng.draw (nr * nt)
      let q := p.2.draw (nr * nt)
      (⟨(List.range nr).map fun r => (List.range nt).map fun c =>
          ((p.1.getD (r * nt + c) 0, q.1.getD (r * nt + c) 0) : CQ), true⟩,
       (2 : ℚ) * nt, q.2)
  | (FShape.Binary, FDomain.Real) =>
      let p := rng.draw (nr * nt)
      (⟨(List.range nr).map fun r => (List.range nt).map fun c =>
          ((1 - 2 * p.1.getD (r * nt + c) 0, 0) : CQ), false⟩, (1 : ℚ) * nt, p.2)
  | (FShape.Binary, FDomain.Complex) =>
      let p := rng.draw (nr * nt)
      let q := p.2.draw (nr * nt)
      (⟨(List.range nr).map fun r => (List.range nt).map fun c =>
          ((1 - 2 * p.1.getD (r * nt + c) 0,
            1 - 2 * q.1.getD (r * nt + c) 0) : CQ), true⟩, (2 : ℚ) * nt, q.2)

/-- `create_transmitted_symbols(num_transmitters, amps, quadrature)`.
NOTE: faithful to the source, the draws come from the AMBIENT generator
(`np.random.choice`), not from the explicit random source.  Returns the
symbols, their dtype flag, and the advanced ambient generator. -/
def createTransmittedSymbols (nt : ℕ) (amps : List ℚ) (quadrature : Bool)
    (g : Globals) : List CQ × Bool × Globals :=
  if quadrature = false then
    let p := g.choice amps nt
    (p.1.map fun x => ((x, 0) : CQ), false, p.2)
  else
    let p := g.choice amps nt
    let q := p.2.choice amps nt
    (List.zipWith (fun a b => ((a, b) : CQ)) p.1 q.1, true, q.2)

/-- Energy per bit `Eb = channel_power * constellation_mean_power /
bits_per_transmitter` (from `create_signal`). -/
def energyPerBit (cp : ℚ) (m : Modulation) : ℚ :=
  cp * (constellationProperties m).2.2 / ((constellationProperties m).1 : ℚ)

/-- Noise spectral density `N0 = Eb / SNRb` (from `create_signal`). -/
def noiseN0 (cp : ℚ) (m : Modulation) (s : ℚ) : ℚ := energyPerBit cp m / s

/-- Componentwise complex vector addition. -/
def vecAddC (a b : List CQ) : List CQ := List.zipWith (· + ·) a b

/-- `create_signal(F, transmitted_symbols, channel_noise, SNRb, modulation,
channel_power, random_state)`.  `np.sqrt` is modeled by the explicit
function parameter `sqrtQ`.  Returns `(y, v, noise, random_state,
globals)`. -/
def createSignal (F : NDMat) (ts0 : Option NDVec) (noise0 : Option NDVec)
    (SNRb : Option ℚ) (m : Modulation) (channelPower : Option ℚ)
    (rng : RNG) (g : Globals) (sqrtQ : ℚ → ℚ) :
    Except String (NDVec × NDVec × Option NDVec × RNG × Globals) := do
  let nr := F.entries.length
  let nt := numCols F.entries
  let cp : ℚ := channelPower.getD (nt : ℚ)
  let amps := (constellationProperties m).2.1
  let tsg : NDVec × Globals :=
    match ts0 with
    | some v => (v, g)
    | none =>
      match m with
      | BPSK =>
        let p := createTransmittedSymbols nt amps false g
        (⟨p.1, p.2.1⟩, p.2.2)
      | _ =>
        let p := createTransmittedSymbols nt amps true g
        (⟨p.1, p.2.1⟩, p.2.2)
  let ts := tsg.1
  match SNRb with
  | some s =>
    if s ≤ 0 then
      throw "ValueError: Expect positive signal to noise ratio"
    else
      let sigma : ℚ := sqrtQ (noiseN0 cp m s / 2)
      let noiseR : NDVec × RNG :=
        match noise0 with
        | some nvec => (nvec, rng)
        | none =>
          if ts.cplx = false ∧ F.cplx = false then
            let p := rng.draw nr
            (⟨p.1.map fun x => ((sigma * x, 0) : CQ), false⟩, p.2)
          else
            let p := rng.draw nr
            let q := p.2.draw nr
            (⟨(List.range nr).map fun i =>
                ((sigma * p.1.getD i 0, sigma * q.1.getD i 0) : CQ), true⟩, q.2)
      let y := vecAddC noiseR.1.entries (matVec F.entries ts.entries)
      return (⟨y, noiseR.1.cplx || (F.cplx || ts.cplx)⟩, ts, some noiseR.1,
        noiseR.2, tsg.2)
  | none =>
    return (⟨matVec F.entries ts.entries, F.cplx || ts.cplx⟩, ts, noise0,
      rng, tsg.2)

/-! The external quadratic-model container and the composers. -/

/-- Modelled from the spec: the external quadratic-model container
(spec section 6), whose code is not under `src/`.  A model holds an assoc
list of linear biases keyed by variable (every variable of the model has
an entry), quadratic biases keyed by variable pairs, and an offset. -/
structure BQM (V : Type) where
  lin : List (V × ℚ)
  quad : List ((V × V) × ℚ)
  offset : ℚ
deriving DecidableEq

/-- Modelled from the spec: the constructor from dense `(h, J)` spin
arrays; every index `0..len(h)-1` becomes a variable, pairwise quadratic
coefficients are read off the dense matrix (both triangles), and the
diagonal of the spin-domain matrix folds into the offset. -/
def bqmFromIsing (h : List ℚ) (J : List (List ℚ)) (off : ℚ) : BQM ℕ :=
  { lin := (List.range h.length).zip h
    quad := ((List.range h.length).map fun i =>
        (((List.range h.length).filter fun j => i < j).map fun j =>
          ((i, j), (J.getD i []).getD j 0 + (J.getD j []).getD i 0))).flatten
    offset := off + ((List.range h.length).map fun i =>
        (J.getD i []).getD i 0).sum }

/-- `np.fill_diagonal(J, 0)`. -/
def fillDiagZero (J : List (List ℚ)) : List (List ℚ) :=
  J.mapIdx fun i row => row.mapIdx fun j x => if i = j then 0 else x

/-- Modelled from the spec: `relabel_variables(mapping)`; variables in the
mapping are renamed, variables absent from it keep their integer labels. -/
def BQM.relabelPartial {V : Type} (b : BQM ℕ) (mapping : ℕ → Option V) :
    BQM (ℕ ⊕ V) :=
  let f : ℕ → ℕ ⊕ V := fun i =>
    match mapping i with
    | some l => Sum.inr l
    | none => Sum.inl i
  { lin := b.lin.map fun kv => (f kv.1, kv.2)
    quad := b.quad.map fun kv => ((f kv.1.1, f kv.1.2), kv.2)
    offset := b.offset }

/-- Accumulate one linear bias into an assoc list, merging by variable
identity. -/
def insertAddLin {V : Type} [DecidableEq V] (l : List (V × ℚ)) (k : V)
    (c : ℚ) : List (V × ℚ) :=
  if l.any fun kv => kv.1 = k then
    l.map fun kv => if kv.1 = k then (kv.1, kv.2 + c) else kv
  else l ++ [(k, c)]

/-- Unordered equality of interaction keys. -/
def pairKeyEq {V : Type} [DecidableEq V] (a b : V × V) : Bool :=
  (a.1 = b.1 && a.2 = b.2) || (a.1 = b.2 && a.2 = b.1)

/-- Accumulate one quadratic bias, merging by unordered variable pair. -/
def insertAddQuad {V : Type} [DecidableEq V] (l : List ((V × V) × ℚ))
    (k : V × V) (c : ℚ) : List ((V × V) × ℚ) :=
  if l.any fun kv => pairKeyEq kv.1 k then
    l.map fun kv => if pairKeyEq kv.1 k then (kv.1, kv.2 + c) else kv
  else l ++ [(k, c)]

/-- Modelled from the spec: model summation (`bqm + bqm_cell`) merges
variables by identity, adding coefficients. -/
def BQM.add {V : Type} [DecidableEq V] (b1 b2 : BQM V) : BQM V :=
  { lin := b2.lin.foldl (fun acc kv => insertAddLin acc kv.1 kv.2) b1.lin
    quad := b2.quad.foldl (fun acc kv => insertAddQuad acc kv.1 kv.2) b1.quad
    offset := b1.offset + b2.offset }

/-- The empty model (`dimod.BinaryQuadraticModel('SPIN')`). -/
def BQM.empty {V : Type} : BQM V := ⟨[], [], 0⟩

/-- The channel-resolution step of `spin_encoded_mimo`: a missing channel
is generated (with its channel power); a caller-supplied channel gets
`channel_power = num_transmitters`. -/
def resolveChannel (F0 : Option NDMat) (nr nt : ℕ)
    (Fdist : Option (FShape × FDomain)) (rng : RNG) : NDMat × ℚ × RNG :=
  match F0 with
  | none => createChannel nr nt Fdist rng
  | some F => (F, (nt : ℚ), rng)

/-- `spin_encoded_mimo(...)`: the single-cell composer.  The `seed`
argument is the materialized explicit random source; the ambient
generator `g` is threaded separately (it is consumed by default
transmitted-symbol generation).  Returns the model together with the
advanced sources. -/
def spinEncodedMimo (m : Modulation) (y0 : Option NDMat) (F0 : Option NDMat)
    (ts0 : Option NDVec) (noise0 : Option NDVec)
    (nt0 nr0 : Option ℕ) (SNRb : Option ℚ) (seed : RNG)
    (Fdist : Option (FShape × FDomain)) (useOffset : Bool)
    (g : Globals) (sqrtQ : ℚ → ℚ) :
    Except String (BQM ℕ × RNG × Globals) := do
  let nt : ℕ ← match nt0 with
    | some v => pure v
    | none => match F0 with
      | some F => pure (numCols F.entries)
      | none => match ts0 with
        | some ts => pure ts.entries.length
        | none => throw "ValueError: num_transmitters is not specified"
  let nr : ℕ ← match nr0 with
    | some v => pure v
    | none => match F0 with
      | some F => pure F.entries.length
      | none => match y0 with
        | some y => pure y.entries.length
        | none => match noise0 with
          | some nv => pure nv.entries.length
          | none => throw "ValueError: num_receivers is not specified"
  if nt = 0 then
    throw "AssertionError: Expect positive number of transmitters"
  if nr = 0 then
    throw "AssertionError: Expect positive number of receivers"
  let Fcp := resolveChannel F0 nr nt Fdist seed
  let F := Fcp.1
  let channelPower := Fcp.2.1
  let rng1 := Fcp.2.2
  let yrg : NDMat × RNG × Globals ← match y0 with
    | some y => pure (y, rng1, g)
    | none => do
        let r ← createSignal F ts0 noise0 SNRb m (some channelPower) rng1 g sqrtQ
        pure ((⟨r.1.entries.map fun c => [c], r.1.cplx⟩ : NDMat),
          r.2.2.2.1, r.2.2.2.2)
  let hJo ← yFToHJ yrg.1 F m
  if useOffset then
    return (bqmFromIsing hJo.1 hJo.2.1 hJo.2.2, yrg.2)
  else
    return (bqmFromIsing hJo.1 (fillDiagZero hJo.2.1) 0, yrg.2)

/-! The cooperative composer. -/

/-- The basestation lattice, consumed through the interface of spec
section 6 (nodes, neighbors, degree, node and edge counts). -/
structure Graph (V : Type) where
  nodes : List V
  edges : List (V × V)

/-- `G.neighbors(v)`. -/
def Graph.neighbors {V : Type} [DecidableEq V] (G : Graph V) (v : V) :
    List V :=
  G.edges.filterMap fun e =>
    if e.1 = v then some e.2 else if e.2 = v then some e.1 else none

/-- `G.degree(v)`. -/
def Graph.degree {V : Type} [DecidableEq V] (G : Graph V) (v : V) : ℕ :=
  (G.neighbors v).length

/-- `G.num_nodes`. -/
def Graph.numNodes {V : Type} (G : Graph V) : ℕ := G.nodes.length

/-- `G.num_edges`. -/
def Graph.numEdges {V : Type} (G : Graph V) : ℕ := G.edges.length

/-- Well-formed simple graph: distinct nodes and edges between distinct
existing nodes. -/
def Graph.wf {V : Type} [DecidableEq V] (G : Graph V) : Prop :=
  G.nodes.Nodup ∧
  (∀ e ∈ G.edges, e.1 ∈ G.nodes ∧ e.2 ∈ G.nodes ∧ e.1 ≠ e.2)

/-- The per-cell SNRb of `spin_encoded_comp`: a finite target is divided
by `1 + 2*num_edges/num_nodes` before being passed to each cell. -/
def compCellSNRb {V : Type} (SNRb : Option ℚ) (G : Graph V) : Option ℚ :=
  match SNRb with
  | some s => some (s / (1 + 2 * (G.numEdges : ℚ) / (G.numNodes : ℚ)))
  | none => none

/-- The geometric relabeling of one cell: the node's own transmitters
first, then each neighbor's. -/
def geometricLabels {V : Type} [DecidableEq V] (G : Graph V) (bs : V)
    (t : ℕ) : List (V × ℕ) :=
  ((List.range t).map fun i => (bs, i)) ++
  ((G.neighbors bs).map fun nb => (List.range t).map fun i => (nb, i)).flatten

/-- The node loop of `spin_encoded_comp`: build each cell with the
enlarged transmitter count, relabel its integer variables to geometric
labels, and sum. -/
def compLoop {V : Type} [DecidableEq V] (G : Graph V) (m : Modulation)
    (ys Fs : V → Option NDMat) (noise0 : Option NDVec) (nt nr : ℕ)
    (SNRbCell : Option ℚ) (seed : RNG) (Fdist : Option (FShape × FDomain))
    (useOffset : Bool) (g : Globals) (sqrtQ : ℚ → ℚ) :
    Except String (BQM (ℕ ⊕ V × ℕ) × Globals) :=
  G.nodes.foldlM (fun (acc : BQM (ℕ ⊕ V × ℕ) × Globals) bs => do
    let cell ← spinEncodedMimo m (ys bs) (Fs bs) none noise0
      (some (nt * (1 + G.degree bs))) (some nr) SNRbCell seed Fdist
      useOffset acc.2 sqrtQ
    let labels := geometricLabels G bs nt
    pure (acc.1.add (cell.1.relabelPartial fun i => labels.get? i),
      cell.2.2)) (BQM.empty, g)

/-- `spin_encoded_comp(lattice, ...)`: the cooperative composer over a
given lattice graph (the integer-argument honeycomb branch is outside the
scope of the claims).  Only BPSK/QPSK with default transmitted symbols is
supported; with no nodes a finite SNRb hits the division by zero in
`2*num_edges/num_nodes`. -/
def spinEncodedComp {V : Type} [DecidableEq V] (G : Graph V)
    (m : Modulation) (ys Fs : V → Option NDMat)
    (ts0 : Option NDVec) (noise0 : Option NDVec)
    (nt0 nr0 : Option ℕ) (SNRb : Option ℚ) (seed : RNG)
    (Fdist : Option (FShape × FDomain)) (useOffset : Bool)
    (g : Globals) (sqrtQ : ℚ → ℚ) :
    Except String (BQM (ℕ ⊕ V × ℕ) × Globals) := do
  let nt := nt0.getD 1
  let nr := nr0.getD 1
  if (m ≠ BPSK ∧ m ≠ QPSK) ∨ ts0.isSome then
    throw "ValueError: transmitted symbols not all default not yet supported"
  if SNRb.isSome ∧ G.numNodes = 0 then
    throw "ZeroDivisionError: division by zero"
  compLoop G m ys Fs noise0 nt nr (compCellSNRb SNRb G) seed Fdist useOffset
    g sqrtQ

/-! Random-source threading (claim C9). -/

set_option maxHeartbeats 1600000 in
/-- C9: with a caller-fixed seed (explicit random source) and otherwise
identical arguments, the model emitted by `spin_encoded_mimo` for 16QAM
with default transmitted symbols still depends on the AMBIENT
process-wide generator, because `create_transmitted_symbols` draws via
`np.random.choice`: two ambient states yield different linear biases. -/
theorem C9_ambient_generator_dependence :
    (spinEncodedMimo QAM16 none (some ⟨[[((1:ℚ), 0)]], true⟩) none none
      (some 1) (some 1) none ⟨fun n => (n + 1 : ℚ), 0⟩ none false
      ⟨fun _ => 0, 0⟩ id).map (fun p => p.1.lin) ≠
    (spinEncodedMimo QAM16 none (some ⟨[[((1:ℚ), 0)]], true⟩) none none
      (some 1) (some 1) none ⟨fun n => (n + 1 : ℚ), 0⟩ none false
      ⟨fun _ => 1, 0⟩ id).map (fun p => p.1.lin) := by
  have h1 : (spinEncodedMimo QAM16 none (some ⟨[[((1:ℚ), 0)]], true⟩) none none
      (some 1) (some 1) none ⟨fun n => (n + 1 : ℚ), 0⟩ none false
      ⟨fun _ => 0, 0⟩ id).map (fun p => p.1.lin)
      = Except.ok [((0:ℕ), (-2:ℚ)), (1, -2), (2, -4), (3, -4)] := by
    unfold spinEncodedMimo resolveChannel createSignal yFToHJ quadraticForm
    norm_num [createTransmittedSymbols, Globals.choice,
      constellationProperties, numCols, matVec, matMulM, dotC, cmul, conjC,
      scaleC, flattenCol, conjTransposeM, List.range_succ, vecAddC,
      realQuadraticForm, amplitudeModulatedQuadraticForm, kronVec, kronM,
      ampWeights, hcat, vcat, matRe, matIm, transposeQ, bqmFromIsing,
      fillDiagZero, Except.map, List.filter_cons,
      (show (QAM16 = BPSK) = False from eq_false (fun hh => by cases hh))]
    rfl
  have h2 : (spinEncodedMimo QAM16 none (some ⟨[[((1:ℚ), 0)]], true⟩) none none
      (some 1) (some 1) none ⟨fun n => (n + 1 : ℚ), 0⟩ none false
      ⟨fun _ => 1, 0⟩ id).map (fun p => p.1.lin)
      = Except.ok [((0:ℕ), (-6:ℚ)), (1, -6), (2, -12), (3, -12)] := by
    unfold spinEncodedMimo resolveChannel createSignal yFToHJ quadraticForm
    norm_num [createTransmittedSymbols, Globals.choice,
      constellationProperties, numCols, matVec, matMulM, dotC, cmul, conjC,
      scaleC, flattenCol, conjTransposeM, List.range_succ, vecAddC,
      realQuadraticForm, amplitudeModulatedQuadraticForm, kronVec, kronM,
      ampWeights, hcat, vcat, matRe, matIm, transposeQ, bqmFromIsing,
      fillDiagZero, Except.map, List.filter_cons,
      (show (QAM16 = BPSK) = False from eq_false (fun hh => by cases hh))]
    rfl
  rw [h1, h2]
  intro hcontra
  have hinj : [((0:ℕ), (-2:ℚ)), (1, -2), (2, -4), (3, -4)]
      = [((0:ℕ), (-6:ℚ)), (1, -6), (2, -12), (3, -12)] := by
    cases hcontra
  have hbad := congrArg (fun l => (l.getD 0 ((0:ℕ), (0:ℚ))).2) hinj
  norm_num [List.getD_cons_zero] at hbad

/-! SNRb spreading in the cooperative composer (claim C3). -/

/-- C3: for a lattice with at least one node and a finite positive SNRb,
`spin_encoded_comp` hands each per-node single-cell composer the value
`SNRb / (1 + 2*num_edges/num_nodes)`: the composer equals its node loop
run at exactly that per-cell SNRb. -/
theorem C3_snrb_division {V : Type} [DecidableEq V] (G : Graph V)
    (m : Modulation) (ys Fs : V → Option NDMat) (noise0 : Option NDVec)
    (nt0 nr0 : Option ℕ) (s : ℚ) (seed : RNG)
    (Fdist : Option (FShape × FDomain)) (useOffset : Bool)
    (g : Globals) (sqrtQ : ℚ → ℚ)
    (hm : m = BPSK ∨ m = QPSK) (hn : G.nodes ≠ []) (_hs : 0 < s) :
    compCellSNRb (some s) G
      = some (s / (1 + 2 * (G.numEdges : ℚ) / (G.numNodes : ℚ))) ∧
    spinEncodedComp G m ys Fs none noise0 nt0 nr0 (some s) seed Fdist
        useOffset g sqrtQ
      = compLoop G m ys Fs noise0 (nt0.getD 1) (nr0.getD 1)
          (some (s / (1 + 2 * (G.numEdges : ℚ) / (G.numNodes : ℚ)))) seed
          Fdist useOffset g sqrtQ := by
  refine ⟨rfl, ?_⟩
  have hguard1 : ¬ ((m ≠ BPSK ∧ m ≠ QPSK) ∨ (none : Option NDVec).isSome) := by
    rintro (⟨h1, h2⟩ | h3)
    · rcases hm with rfl | rfl
      · exact h1 rfl
      · exact h2 rfl
    · cases h3
  have hguard2 : ¬ ((some s).isSome ∧ G.numNodes = 0) := by
    rintro ⟨_, h0⟩
    exact hn (List.length_eq_zero.mp h0)
  unfold spinEncodedComp
  rw [if_neg hguard1, if_neg hguard2]
  rfl

/-- C3 witness: the division at a concrete two-node, one-edge lattice with
`SNRb = 10`: the per-cell value is `10 / (1 + 2*1/2) = 5`. -/
theorem C3_snrb_division_witness :
    compCellSNRb (some 10) (⟨[0, 1], [(0, 1)]⟩ : Graph ℕ) = some 5 ∧
    spinEncodedComp (⟨[0, 1], [(0, 1)]⟩ : Graph ℕ) BPSK (fun _ => none)
        (fun _ => none) none none (some 1) (some 1) (some 10)
        ⟨fun n => (n + 1 : ℚ), 0⟩ none false ⟨fun _ => 0, 0⟩ id
      = compLoop (⟨[0, 1], [(0, 1)]⟩ : Graph ℕ) BPSK (fun _ => none)
          (fun _ => none) none 1 1 (some 5) ⟨fun n => (n + 1 : ℚ), 0⟩ none
          false ⟨fun _ => 0, 0⟩ id := by
  obtain ⟨h1, h2⟩ := C3_snrb_division (⟨[0, 1], [(0, 1)]⟩ : Graph ℕ) BPSK
    (fun _ => none) (fun _ => none) none (some 1) (some 1) 10
    ⟨fun n => (n + 1 : ℚ), 0⟩ none false ⟨fun _ => 0, 0⟩ id
    (Or.inl rfl) (by simp) (by norm_num)
  have hval : (10 : ℚ) / (1 + 2 * ((⟨[0, 1], [(0, 1)]⟩ : Graph ℕ).numEdges : ℚ)
      / ((⟨[0, 1], [(0, 1)]⟩ : Graph ℕ).numNodes : ℚ)) = 5 := by
    norm_num [Graph.numEdges, Graph.numNodes]
  constructor
  · rw [h1, hval]
  · rw [h2, hval]
    rfl

/-! Channel power for supplied vs generated channels (claim C10). -/

/-- C10: a caller-supplied channel always gets
`channel_power = num_transmitters` (complex-valued or not), a generated
default (complex-domain) channel gets `2 * num_transmitters`, and the
noise spectral density `N0 = Eb/SNRb` scales linearly: the supplied
channel's `N0` is half the generated complex channel's. -/
theorem C10_channel_power_halved :
    (∀ (F : NDMat) (nr nt : ℕ) (d : Option (FShape × FDomain)) (rng : RNG),
      (resolveChannel (some F) nr nt d rng).2.1 = (nt : ℚ)) ∧
    (∀ (nr nt : ℕ) (rng : RNG),
      (resolveChannel none nr nt none rng).2.1 = 2 * (nt : ℚ) ∧
      (resolveChannel none nr nt (some (FShape.Normal, FDomain.Complex))
        rng).2.1 = 2 * (nt : ℚ) ∧
      (resolveChannel none nr nt (some (FShape.Binary, FDomain.Complex))
        rng).2.1 = 2 * (nt : ℚ)) ∧
    (∀ (m : Modulation) (s : ℚ) (nt : ℕ),
      noiseN0 (nt : ℚ) m s = (1 / 2) * noiseN0 (2 * (nt : ℚ)) m s) := by
  refine ⟨fun F nr nt d rng => rfl, fun nr nt rng => ⟨rfl, rfl, rfl⟩, ?_⟩
  intro m s nt
  unfold noiseN0 energyPerBit
  ring

/-! Variable accounting for the cooperative composition (claim C2). -/

theorem keys_insertAddLin {V : Type} [DecidableEq V] (l : List (V × ℚ))
    (k : V) (c : ℚ) (x : V) :
    x ∈ (insertAddLin l k c).map Prod.fst ↔ x ∈ l.map Prod.fst ∨ x = k := by
  unfold insertAddLin
  by_cases hmem : l.any fun kv => kv.1 = k
  · rw [if_pos hmem, List.map_map]
    have hk : k ∈ l.map Prod.fst := by
      obtain ⟨kv, hkv, he⟩ := List.any_eq_true.mp hmem
      simp only [decide_eq_true_eq] at he
      exact he ▸ List.mem_map_of_mem Prod.fst hkv
    have hsame : l.map (Prod.fst ∘ fun kv => if kv.1 = k then (kv.1, kv.2 + c) else kv)
        = l.map Prod.fst := by
      refine List.map_congr_left fun kv _ => ?_
      by_cases hkk : kv.1 = k <;> simp [Function.comp, hkk]
    rw [hsame]
    constructor
    · exact Or.inl
    · rintro (hx | rfl)
      · exact hx
      · exact hk
  · rw [if_neg hmem, List.map_append]
    simp
theorem nodup_insertAddLin {V : Type} [DecidableEq V] (l : List (V × ℚ))
    (k : V) (c : ℚ) (hnd : (l.map Prod.fst).Nodup) :
    ((insertAddLin l k c).map Prod.fst).Nodup := by
  unfold insertAddLin
  by_cases hmem : l.any fun kv => kv.1 = k
  · rw [if_pos hmem, List.map_map]
    have hsame : l.map (Prod.fst ∘ fun kv => if kv.1 = k then (kv.1, kv.2 + c) else kv)
        = l.map Prod.fst := by
      refine List.map_congr_left fun kv _ => ?_
      by_cases hkk : kv.1 = k <;> simp [Function.comp, hkk]
    rw [hsame]
    exact hnd
  · rw [if_neg hmem, List.map_append]
    simp only [List.map_cons, List.map_nil]
    rw [List.nodup_append]
    refine ⟨hnd, List.nodup_singleton k, ?_⟩
    intro x hx
    simp only [List.mem_singleton]
    intro hxk
    subst hxk
    obtain ⟨kv, hkv, he⟩ := List.mem_map.mp hx
    exact absurd (List.any_eq_true.mpr ⟨kv, hkv, by simp [he]⟩) hmem

theorem keys_addLinFold {V : Type} [DecidableEq V] (l2 : List (V × ℚ)) :
    ∀ (l1 : List (V × ℚ)) (x : V),
    (x ∈ (l2.foldl (fun acc kv => insertAddLin acc kv.1 kv.2) l1).map Prod.fst
      ↔ x ∈ l1.map Prod.fst ∨ x ∈ l2.map Prod.fst) := by
  induction l2 with
  | nil => intro l1 x; simp
  | cons kv l2' ih =>
    intro l1 x
    rw [List.foldl_cons, ih (insertAddLin l1 kv.1 kv.2) x,
      keys_insertAddLin, List.map_cons]
    simp only [List.mem_cons]
    tauto

theorem nodup_addLinFold {V : Type} [DecidableEq V] (l2 : List (V × ℚ)) :
    ∀ (l1 : List (V × ℚ)), (l1.map Prod.fst).Nodup →
    ((l2.foldl (fun acc kv => insertAddLin acc kv.1 kv.2) l1).map Prod.fst).Nodup := by
  induction l2 with
  | nil => intro l1 h; simpa using h
  | cons kv l2' ih =>
    intro l1 h
    rw [List.foldl_cons]
    exact ih (insertAddLin l1 kv.1 kv.2) (nodup_insertAddLin l1 kv.1 kv.2 h)

theorem keys_bqm_add {V : Type} [DecidableEq V] (b1 b2 : BQM V) (x : V) :
    x ∈ (b1.add b2).lin.map Prod.fst ↔
      x ∈ b1.lin.map Prod.fst ∨ x ∈ b2.lin.map Prod.fst :=
  keys_addLinFold b2.lin b1.lin x

theorem nodup_bqm_add {V : Type} [DecidableEq V] (b1 b2 : BQM V)
    (h : (b1.lin.map Prod.fst).Nodup) :
    ((b1.add b2).lin.map Prod.fst).Nodup :=
  nodup_addLinFold b2.lin b1.lin h

theorem keys_bqmFromIsing (h : List ℚ) (J : List (List ℚ)) (off : ℚ) :
    (bqmFromIsing h J off).lin.map Prod.fst = List.range h.length := by
  unfold bqmFromIsing
  exact List.map_fst_zip _ _ (by simp)

theorem keys_relabelPartial {V : Type} (b : BQM ℕ) (mapping : ℕ → Option V) :
    (b.relabelPartial mapping).lin.map Prod.fst
      = (b.lin.map Prod.fst).map fun i =>
          match mapping i with
          | some l => Sum.inr l
          | none => Sum.inl i := by
  unfold BQM.relabelPartial
  rw [List.map_map, List.map_map]
  rfl

/-- Relabeling a cell whose variables are exactly `0..n-1` with a full
mapping list of length `n` yields exactly the labels. -/
theorem keys_relabel_range {V : Type} (b : BQM ℕ) (labels : List V)
    (hkeys : b.lin.map Prod.fst = List.range labels.length) :
    (b.relabelPartial fun i => labels.get? i).lin.map Prod.fst
      = labels.map Sum.inr := by
  rw [keys_relabelPartial, hkeys]
  cases labels with
  | nil => simp
  | cons l0 rest =>
    have hcg : ∀ i ∈ List.range (l0 :: rest).length,
        (match (l0 :: rest).get? i with
         | some l => (Sum.inr l : ℕ ⊕ V)
         | none => Sum.inl i)
        = Sum.inr ((l0 :: rest).getD i l0) := by
      intro i hi
      have hilt : i < (l0 :: rest).length := List.mem_range.mp hi
      have hget : (l0 :: rest).get? i = some ((l0 :: rest).getD i l0) := by
        rw [List.get?_eq_getElem?, List.getElem?_eq_getElem hilt,
          List.getD_eq_getElem (l0 :: rest) l0 hilt]
      rw [hget]
    rw [List.map_congr_left hcg,
      show (fun i => Sum.inr ((l0 :: rest).getD i l0) : ℕ → ℕ ⊕ V)
        = Sum.inr ∘ (fun i => (l0 :: rest).getD i l0) from rfl,
      ← List.map_map, range_map_getD]

theorem createChannel_shape (nr nt : ℕ) (Fdist : Option (FShape × FDomain))
    (rng : RNG) :
    (createChannel nr nt Fdist rng).1.entries.length = nr ∧
    ∀ r ∈ (createChannel nr nt Fdist rng).1.entries, r.length = nt := by
  unfold createChannel
  rcases Fdist.getD (FShape.Normal, FDomain.Complex) with ⟨sh, dom⟩
  cases sh <;> cases dom <;>
    exact ⟨by simp, fun r hr => by
      obtain ⟨i, _, rfl⟩ := List.mem_map.mp hr
      simp⟩

theorem numCols_of_shape (M : List (List CQ)) (nr nt : ℕ)
    (hlen : M.length = nr) (hrows : ∀ r ∈ M, r.length = nt) (hnr : 1 ≤ nr) :
    numCols M = nt := by
  cases M with
  | nil => simp at hlen; omega
  | cons r0 rest =>
    exact (by simpa [numCols] using hrows r0 (List.mem_cons_self r0 rest))

theorem createSignal_ok (F : NDMat) (SNRb : Option ℚ) (cp : Option ℚ)
    (m : Modulation) (rng : RNG) (g : Globals) (sqrtQ : ℚ → ℚ)
    (hsnr : SNRb = none ∨ ∃ s, SNRb = some s ∧ 0 < s) :
    ∃ yv ts no rng' g',
      createSignal F none none SNRb m cp rng g sqrtQ
        = Except.ok (yv, ts, no, rng', g') ∧
      yv.entries.length = F.entries.length := by
  unfold createSignal
  rcases hsnr with rfl | ⟨s, rfl, hs⟩
  · refine ⟨_, _, _, _, _, rfl, ?_⟩
    cases m <;> simp [matVec]
  · simp only [show (s ≤ 0) = False from eq_false (not_le.mpr hs), if_false]
    refine ⟨_, _, _, _, _, rfl, ?_⟩
    split
    · simp [vecAddC, matVec, RNG.draw]
    · simp [vecAddC, matVec, RNG.draw]

theorem realQuadraticForm_bpsk (h : NDVec) (J : NDMat) :
    realQuadraticForm h J BPSK = (h.entries.map (·.1), matRe J.entries) := by
  unfold realQuadraticForm
  rw [if_neg]
  rintro ⟨hne, _⟩
  exact hne rfl

theorem yFToHJ_bpsk_ok (y2d F : NDMat)
    (hy1 : ∀ r ∈ y2d.entries, r.length = 1)
    (hlen : F.entries.length = y2d.entries.length) :
    ∃ h J off, yFToHJ y2d F BPSK = Except.ok (h, J, off) ∧
      h.length = numCols F.entries := by
  have hall : (y2d.entries.all fun r => r.length = 1) = true := by
    rw [List.all_eq_true]
    intro r hr
    simpa using hy1 r hr
  unfold yFToHJ quadraticForm
  rw [if_neg (by rw [hall]; simp), if_neg (by omega)]
  simp only [pure_bind, realQuadraticForm_bpsk]
  refine ⟨_, _, _, rfl, ?_⟩
  simp [amplitudeModulatedQuadraticForm, scaleC, matVec, conjTransposeM]

theorem except_bind_ok {e a b : Type} (x : a) (f : a → Except e b) :
    (Except.ok x >>= f) = f x := rfl

theorem mimo_bpsk_keys (nt nr : ℕ) (SNRb : Option ℚ) (seed : RNG)
    (Fdist : Option (FShape × FDomain)) (useOffset : Bool) (g : Globals)
    (sqrtQ : ℚ → ℚ) (hnt : 1 ≤ nt) (hnr : 1 ≤ nr)
    (hsnr : SNRb = none ∨ ∃ s, SNRb = some s ∧ 0 < s) :
    ∃ B rng' g', spinEncodedMimo BPSK none none none none (some nt) (some nr)
        SNRb seed Fdist useOffset g sqrtQ = Except.ok (B, rng', g') ∧
      B.lin.map Prod.fst = List.range nt := by
  obtain ⟨hFlen, hFrows⟩ := createChannel_shape nr nt Fdist seed
  have hcols : numCols (createChannel nr nt Fdist seed).1.entries = nt :=
    numCols_of_shape _ nr nt hFlen hFrows hnr
  obtain ⟨yv, ts, no, rng', g', hsig, hylen⟩ :=
    createSignal_ok (createChannel nr nt Fdist seed).1 SNRb
      (some (createChannel nr nt Fdist seed).2.1) BPSK
      (createChannel nr nt Fdist seed).2.2 g sqrtQ hsnr
  have hy1 : ∀ r ∈ (yv.entries.map fun c => ([c] : List CQ)), r.length = 1 := by
    intro r hr
    obtain ⟨c, _, rfl⟩ := List.mem_map.mp hr
    rfl
  have hlen2 : (createChannel nr nt Fdist seed).1.entries.length
      = (yv.entries.map fun c => ([c] : List CQ)).length := by
    rw [hFlen, List.length_map, hylen, hFlen]
  obtain ⟨h2, J2, off, hhj, hhlen⟩ :=
    yFToHJ_bpsk_ok ⟨yv.entries.map fun c => [c], yv.cplx⟩
      (createChannel nr nt Fdist seed).1 hy1 hlen2
  simp only [spinEncodedMimo, resolveChannel, pure_bind,
    (show (nt = 0) = False from eq_false (by omega)),
    (show (nr = 0) = False from eq_false (by omega)),
    if_false, hsig, except_bind_ok, hhj]
  by_cases huo : useOffset
  · rw [if_pos huo]
    refine ⟨_, _, _, rfl, ?_⟩
    rw [keys_bqmFromIsing, hhlen, hcols]
  · rw [if_neg huo]
    refine ⟨_, _, _, rfl, ?_⟩
    rw [keys_bqmFromIsing, hhlen, hcols]

theorem geometricLabels_length {V : Type} [DecidableEq V] (G : Graph V)
    (bs : V) (t : ℕ) :
    (geometricLabels G bs t).length = t * (1 + G.degree bs) := by
  unfold geometricLabels
  rw [List.length_append, List.length_map, List.length_range,
    length_flatten_uniform _ t (by
      intro l hl
      obtain ⟨nb, _, rfl⟩ := List.mem_map.mp hl
      simp), List.length_map]
  unfold Graph.degree
  ring

theorem geometricLabels_mem {V : Type} [DecidableEq V] (G : Graph V)
    (bs : V) (t : ℕ) (a : V) (b : ℕ) :
    (a, b) ∈ geometricLabels G bs t ↔
      ((a = bs ∨ a ∈ G.neighbors bs) ∧ b < t) := by
  unfold geometricLabels
  constructor
  · intro h
    rcases List.mem_append.mp h with h1 | h2
    · obtain ⟨i, hi, he⟩ := List.mem_map.mp h1
      have ha : bs = a := congrArg Prod.fst he
      have hb : i = b := congrArg Prod.snd he
      subst ha hb
      exact ⟨Or.inl rfl, List.mem_range.mp hi⟩
    · obtain ⟨L, hL, hmem⟩ := List.mem_flatten.mp h2
      obtain ⟨nb, hnb, rfl⟩ := List.mem_map.mp hL
      obtain ⟨i, hi, he⟩ := List.mem_map.mp hmem
      have ha : nb = a := congrArg Prod.fst he
      have hb : i = b := congrArg Prod.snd he
      subst ha hb
      exact ⟨Or.inr hnb, List.mem_range.mp hi⟩
  · rintro ⟨h1 | h1, h2⟩
    · subst h1
      exact List.mem_append.mpr (Or.inl
        (List.mem_map.mpr ⟨b, List.mem_range.mpr h2, rfl⟩))
    · exact List.mem_append.mpr (Or.inr (List.mem_flatten.mpr
        ⟨(List.range t).map fun i => (a, i),
         List.mem_map.mpr ⟨a, h1, rfl⟩,
         List.mem_map.mpr ⟨b, List.mem_range.mpr h2, rfl⟩⟩))

theorem neighbors_subset_nodes {V : Type} [DecidableEq V] (G : Graph V)
    (hwf : G.wf) (v : V) : ∀ nb ∈ G.neighbors v, nb ∈ G.nodes := by
  intro nb hnb
  unfold Graph.neighbors at hnb
  obtain ⟨e, he, hfe⟩ := List.mem_filterMap.mp hnb
  by_cases h1 : e.1 = v
  · rw [if_pos h1] at hfe
    exact (Option.some.injEq _ _ ▸ hfe) ▸ (hwf.2 e he).2.1
  · rw [if_neg h1] at hfe
    by_cases h2 : e.2 = v
    · rw [if_pos h2] at hfe
      exact (Option.some.injEq _ _ ▸ hfe) ▸ (hwf.2 e he).1
    · rw [if_neg h2] at hfe
      cases hfe

theorem compLoop_fold_keys {V : Type} [DecidableEq V] (G : Graph V)
    (t nr : ℕ) (S : Option ℚ) (seed : RNG)
    (Fdist : Option (FShape × FDomain)) (uo : Bool) (sqrtQ : ℚ → ℚ)
    (ht : 1 ≤ t) (hnr : 1 ≤ nr)
    (hsnr : S = none ∨ ∃ s, S = some s ∧ 0 < s) :
    ∀ (ns : List V) (acc : BQM (ℕ ⊕ V × ℕ)) (g : Globals),
    (acc.lin.map Prod.fst).Nodup →
    ∃ B g', (List.foldlM (fun (acc : BQM (ℕ ⊕ V × ℕ) × Globals) bs => do
        let cell ← spinEncodedMimo BPSK ((fun _ => none) bs)
          ((fun (_ : V) => none) bs) none none
          (some (t * (1 + G.degree bs))) (some nr) S seed Fdist uo acc.2 sqrtQ
        pure (acc.1.add (cell.1.relabelPartial fun i =>
          (geometricLabels G bs t).get? i), cell.2.2)) (acc, g) ns)
      = Except.ok (B, g') ∧
      (B.lin.map Prod.fst).Nodup ∧
      (∀ ℓ, ℓ ∈ B.lin.map Prod.fst ↔ ℓ ∈ acc.lin.map Prod.fst ∨
        ∃ bs ∈ ns, ℓ ∈ (geometricLabels G bs t).map Sum.inr) := by
  intro ns
  induction ns with
  | nil =>
    intro acc g hnd
    refine ⟨acc, g, rfl, hnd, fun ℓ => ?_⟩
    simp
  | cons bs ns' ih =>
    intro acc g hnd
    obtain ⟨cellB, rng', g2, hmimo, hkeys⟩ :=
      mimo_bpsk_keys (t * (1 + G.degree bs)) nr S seed Fdist uo g sqrtQ
        (Nat.mul_pos (by omega) (by omega)) hnr hsnr
    have hlab : (geometricLabels G bs t).length = t * (1 + G.degree bs) :=
      geometricLabels_length G bs t
    have hrel : ((cellB.relabelPartial fun i =>
        (geometricLabels G bs t).get? i).lin.map Prod.fst)
        = (geometricLabels G bs t).map Sum.inr :=
      keys_relabel_range cellB (geometricLabels G bs t) (by rw [hkeys, hlab])
    rw [List.foldlM_cons]
    have hstep : (do
        let cell ← spinEncodedMimo BPSK ((fun _ => none) bs)
          ((fun (_ : V) => none) bs) none none
          (some (t * (1 + G.degree bs))) (some nr) S seed Fdist uo
          (acc, g).2 sqrtQ
        pure ((acc, g).1.add (cell.1.relabelPartial fun i =>
          (geometricLabels G bs t).get? i), cell.2.2))
        = Except.ok (acc.add (cellB.relabelPartial fun i =>
            (geometricLabels G bs t).get? i), g2) := by
      show (spinEncodedMimo BPSK none none none none
          (some (t * (1 + G.degree bs))) (some nr) S seed Fdist uo g sqrtQ
          >>= _) = _
      rw [hmimo, except_bind_ok]
      rfl
    rw [hstep, except_bind_ok]
    obtain ⟨B, g3, hfold, hndB, hmemB⟩ := ih
      (acc.add (cellB.relabelPartial fun i => (geometricLabels G bs t).get? i))
      g2 (nodup_bqm_add _ _ hnd)
    refine ⟨B, g3, hfold, hndB, fun ℓ => ?_⟩
    rw [hmemB ℓ, keys_bqm_add, hrel]
    simp only [List.mem_cons]
    constructor
    · rintro ((h | h) | ⟨bs', hbs', h⟩)
      · exact Or.inl h
      · exact Or.inr ⟨bs, Or.inl rfl, h⟩
      · exact Or.inr ⟨bs', Or.inr hbs', h⟩
    · rintro (h | ⟨bs', (rfl | hbs'), h⟩)
      · exact Or.inl (Or.inl h)
      · exact Or.inl (Or.inr h)
      · exact Or.inr ⟨bs', hbs', h⟩

/-- C2 amended: for BPSK, the joint model of `spin_encoded_comp` has
exactly `|nodes| * t` variables, namely the geometric labels `(node, i)`
with `i < t`, each appearing exactly once; overlapping references from
neighboring cells merge coefficients instead of duplicating variables. -/
theorem C2_amended_bpsk_variables {V : Type} [DecidableEq V] (G : Graph V)
    (t nr : ℕ) (SNRb : Option ℚ) (seed : RNG)
    (Fdist : Option (FShape × FDomain)) (useOffset : Bool) (g : Globals)
    (sqrtQ : ℚ → ℚ)
    (hwf : G.wf) (ht : 1 ≤ t) (hnr : 1 ≤ nr)
    (hsnr : SNRb = none ∨ ∃ s, SNRb = some s ∧ 0 < s)
    (hguard : SNRb = none ∨ G.nodes ≠ []) :
    ∃ B g', spinEncodedComp G BPSK (fun _ => none) (fun _ => none) none none
        (some t) (some nr) SNRb seed Fdist useOffset g sqrtQ
        = Except.ok (B, g') ∧
      (B.lin.map Prod.fst).Nodup ∧
      (∀ ℓ, ℓ ∈ B.lin.map Prod.fst ↔
        ∃ v ∈ G.nodes, ∃ i, i < t ∧ ℓ = Sum.inr (v, i)) ∧
      (B.lin.map Prod.fst).length = G.numNodes * t := by
  have hsnr' : compCellSNRb SNRb G = none ∨
      ∃ s', compCellSNRb SNRb G = some s' ∧ 0 < s' := by
    rcases hsnr with rfl | ⟨s, rfl, hs⟩
    · exact Or.inl rfl
    · refine Or.inr ⟨_, rfl, ?_⟩
      have hden : (0 : ℚ) < 1 + 2 * (G.numEdges : ℚ) / (G.numNodes : ℚ) := by
        have h2 : (0 : ℚ) ≤ 2 * (G.numEdges : ℚ) / (G.numNodes : ℚ) := by
          positivity
        linarith
      exact div_pos hs hden
  obtain ⟨B, g', hfold, hnd, hmem⟩ :=
    compLoop_fold_keys G t nr (compCellSNRb SNRb G) seed Fdist useOffset
      sqrtQ ht hnr hsnr' G.nodes BQM.empty g (by simp [BQM.empty])
  refine ⟨B, g', ?_, hnd, ?_, ?_⟩
  · unfold spinEncodedComp
    rw [if_neg (by
      rintro (⟨h1, _⟩ | h3)
      · exact h1 rfl
      · cases h3)]
    rw [if_neg (by
      rintro ⟨hS, h0⟩
      rcases hguard with rfl | hne
      · cases hS
      · exact hne (List.length_eq_zero.mp h0))]
    show compLoop G BPSK _ _ none t nr (compCellSNRb SNRb G) seed Fdist
      useOffset g sqrtQ = _
    unfold compLoop
    exact hfold
  · intro ℓ
    rw [hmem ℓ]
    simp only [BQM.empty, List.map_nil, List.not_mem_nil, false_or]
    constructor
    · rintro ⟨bs, hbs, hin⟩
      obtain ⟨⟨a, b⟩, hab, rfl⟩ := List.mem_map.mp hin
      obtain ⟨ha, hb⟩ := (geometricLabels_mem G bs t a b).mp hab
      rcases ha with rfl | hng
      · exact ⟨a, hbs, b, hb, rfl⟩
      · exact ⟨a, neighbors_subset_nodes G hwf bs a hng, b, hb, rfl⟩
    · rintro ⟨v, hv, i, hi, rfl⟩
      exact ⟨v, hv, List.mem_map.mpr
        ⟨(v, i), (geometricLabels_mem G v t v i).mpr ⟨Or.inl rfl, hi⟩, rfl⟩⟩
  · have hcnd : ((G.nodes.product (List.range t)).map
        (fun p => (Sum.inr p : ℕ ⊕ V × ℕ))).Nodup :=
      (hwf.1.product (List.nodup_range t)).map
        (fun a b hab => by cases hab; rfl)
    have hcmem : ∀ ℓ, ℓ ∈ B.lin.map Prod.fst ↔
        ℓ ∈ (G.nodes.product (List.range t)).map
          (fun p => (Sum.inr p : ℕ ⊕ V × ℕ)) := by
      intro ℓ
      rw [hmem ℓ]
      simp only [BQM.empty, List.map_nil, List.not_mem_nil, false_or]
      constructor
      · rintro ⟨bs, hbs, hin⟩
        obtain ⟨⟨a, b⟩, hab, rfl⟩ := List.mem_map.mp hin
        obtain ⟨ha, hb⟩ := (geometricLabels_mem G bs t a b).mp hab
        refine List.mem_map.mpr ⟨(a, b), List.mem_product.mpr
          ⟨?_, List.mem_range.mpr hb⟩, rfl⟩
        rcases ha with rfl | hng
        · exact hbs
        · exact neighbors_subset_nodes G hwf bs a hng
      · intro hin
        obtain ⟨⟨a, b⟩, hab, rfl⟩ := List.mem_map.mp hin
        obtain ⟨ha, hb⟩ := List.mem_product.mp hab
        exact ⟨a, ha, List.mem_map.mpr ⟨(a, b),
          (geometricLabels_mem G a t a b).mpr
            ⟨Or.inl rfl, List.mem_range.mp hb⟩, rfl⟩⟩
    have hperm := (List.perm_ext_iff_of_nodup hnd hcnd).mpr hcmem
    rw [hperm.length_eq, List.length_map,
      show (G.nodes.product (List.range t)).length
        = G.nodes.length * (List.range t).length from List.length_product _ _,
      List.length_range]
    rfl

/-- C2 amended witness: the BPSK joint model over a two-node lattice with
one edge and one transmitter per node has exactly the two variables
`(0, 0)` and `(1, 0)`. -/
theorem C2_amended_bpsk_variables_witness :
    Graph.wf (⟨[0, 1], [(0, 1)]⟩ : Graph ℕ) ∧
    ∃ B g', spinEncodedComp (⟨[0, 1], [(0, 1)]⟩ : Graph ℕ) BPSK
        (fun _ => none) (fun _ => none) none none (some 1) (some 1) none
        ⟨fun n => (n + 1 : ℚ), 0⟩ none false ⟨fun _ => 0, 0⟩ id
        = Except.ok (B, g') ∧
      (B.lin.map Prod.fst).Nodup ∧
      (B.lin.map Prod.fst).length = 2 := by
  have hwf : Graph.wf (⟨[0, 1], [(0, 1)]⟩ : Graph ℕ) := by
    constructor
    · simp
    · intro e he
      simp only [List.mem_singleton] at he
      subst he
      refine ⟨by simp, by simp, by simp⟩
  refine ⟨hwf, ?_⟩
  obtain ⟨B, g', hok, hnd, _, hlen⟩ :=
    C2_amended_bpsk_variables (⟨[0, 1], [(0, 1)]⟩ : Graph ℕ) 1 1 none
      ⟨fun n => (n + 1 : ℚ), 0⟩ none false ⟨fun _ => 0, 0⟩ id
      hwf (by omega) (by omega) (Or.inl rfl) (Or.inl rfl)
  exact ⟨B, g', hok, hnd, by rw [hlen]; rfl⟩

theorem qpsk_channel_eval :
    createChannel 1 1 none ⟨fun n => (n + 1 : ℚ), 0⟩
      = (⟨[[((1:ℚ), 2)]], true⟩, 2, ⟨fun n => (n + 1 : ℚ), 2⟩) := by
  unfold createChannel
  norm_num [RNG.draw, List.range_succ]

theorem qpsk_signal_eval :
    createSignal ⟨[[((1:ℚ), 2)]], true⟩ none none none QPSK (some 2)
      ⟨fun n => (n + 1 : ℚ), 2⟩ ⟨fun _ => 0, 0⟩ id
      = Except.ok (⟨[((-1:ℚ), 3)], true⟩, ⟨[((1:ℚ), 1)], true⟩, none,
          ⟨fun n => (n + 1 : ℚ), 2⟩, ⟨fun _ => 0, 2⟩) := by
  unfold createSignal
  norm_num [createTransmittedSymbols, Globals.choice, constellationProperties,
    numCols, matVec, dotC, cmul, List.range_succ]
  rfl

theorem qpsk_yf_eval :
    yFToHJ ⟨[[((-1:ℚ), 3)]], true⟩ ⟨[[((1:ℚ), 2)]], true⟩ QPSK
      = Except.ok ([-10, -10], [[5, 0], [0, 5]], 10) := by
  unfold yFToHJ quadraticForm
  norm_num [numCols, matVec, matMulM, dotC, cmul, conjC, scaleC, flattenCol,
    conjTransposeM, List.range_succ, realQuadraticForm,
    amplitudeModulatedQuadraticForm, hcat, vcat, matRe, matIm, transposeQ,
    (show (QPSK = BPSK) = False from eq_false (fun hh => by cases hh))]
  rfl

theorem qpsk_cell_eval :
    spinEncodedMimo QPSK none none none none (some 1) (some 1) none
      ⟨fun n => (n + 1 : ℚ), 0⟩ none false ⟨fun _ => 0, 0⟩ id
      = Except.ok (⟨[(0, -10), (1, -10)], [((0, 1), 0)], 0⟩,
          ⟨fun n => (n + 1 : ℚ), 2⟩, ⟨fun _ => 0, 2⟩) := by
  have hfd : fillDiagZero [[5, 0], [0, 5]] = [[(0:ℚ), 0], [0, 0]] := by rfl
  simp only [spinEncodedMimo, resolveChannel, qpsk_channel_eval, pure_bind]
  norm_num [qpsk_signal_eval, qpsk_yf_eval, except_bind_ok, bqmFromIsing,
    hfd, List.range_succ]

set_option maxHeartbeats 1600000 in
/-- C2 counterexample: for QPSK on a single-node lattice with one
transmitter per node, the joint model has TWO variables — the geometric
label `(0, 0)` and the unrelabeled integer spin `1` — not
`|nodes| * t = 1` variables of the form `(node, i)`: the cell's doubled
(real+imaginary) spin count exceeds the relabeling list. -/
theorem C2_counterexample_qpsk_unrelabeled :
    (spinEncodedComp (⟨[0], []⟩ : Graph ℕ) QPSK (fun _ => none)
      (fun _ => none) none none (some 1) (some 1) none
      ⟨fun n => (n + 1 : ℚ), 0⟩ none false ⟨fun _ => 0, 0⟩ id).map
      (fun p => p.1.lin.map Prod.fst)
      = Except.ok [Sum.inr (0, 0), Sum.inl 1] ∧
    (([Sum.inr ((0:ℕ), (0:ℕ)), (Sum.inl 1 : ℕ ⊕ ℕ × ℕ)]).length
      ≠ (⟨[0], []⟩ : Graph ℕ).numNodes * 1) := by
  constructor
  · unfold spinEncodedComp compLoop
    norm_num [List.foldlM_cons, List.foldlM_nil, Graph.degree,
      Graph.neighbors, Graph.numNodes, compCellSNRb, List.filterMap,
      geometricLabels, List.range_succ, qpsk_cell_eval, except_bind_ok,
      BQM.add, BQM.relabelPartial, BQM.empty, insertAddLin, insertAddQuad,
      pairKeyEq, Except.map]
    split
    · rename_i h
      cases h
    · rfl
  · intro hcontra
    simp [Graph.numNodes] at hcontra
